import Mathlib

/-!
Verification of the core of `mac-dir-scope.py` (MacDirScope).

The development shallowly embeds the two-pass pipeline of the script:

* `precompute_directory_sizes` (source lines 272-300): a single `os.walk`
  over the tree recording, for every directory the walk can list, the sum
  of the byte sizes of its direct non-symlink files (0 when reading a
  file size raises `OSError`), followed by one pass over the recorded
  paths sorted by string length descending that adds each path's value
  into its parent's entry when the parent was also recorded.
* `get_file_info` (lines 302-334), `get_path_levels` (lines 336-346),
  `count_files_and_max_levels` (lines 348-368) and the row-collection
  loop of `generate_excel` (lines 411-492).

Filesystem state is modelled by the trees `FSTree`/`FSubs` below; paths
are genuine strings joined and split exactly as `posixpath` does
(macOS, separator `/`).  Python float division is idealised as exact
division in `ℚ`.  The GUI, `mdls` subprocess calls (modelled as opaque
functions of the path) and the `openpyxl` writer are external
collaborators outside the verified core, as the specification's scope
section prescribes.
-/

namespace MacDirScope

/-! ## Path strings (posixpath on macOS, separator `/`) -/

/-- First character is `/` (Python `str.startswith('/')` on a path). -/
def startsWithSlash (s : String) : Bool :=
  match s.data with
  | '/' :: _ => true
  | _ => false

/-- Last character is `/` (Python `str.endswith('/')`). -/
def endsWithSlash (s : String) : Bool :=
  match s.data.reverse with
  | '/' :: _ => true
  | _ => false

/-- `os.path.join(root, name)` for a single name (posixpath.join). -/
def joinPath (root name : String) : String :=
  if startsWithSlash name then name
  else if root = "" ∨ endsWithSlash root then root ++ name
  else root ++ "/" ++ name

/-- `p[:i]` where `i = p.rfind('/') + 1`: the characters of `p` up to and
including the last `/`, empty when `p` has no slash. -/
def dropLastSeg (cs : List Char) : List Char :=
  (cs.reverse.dropWhile (fun c => c ≠ '/')).reverse

/-- Python `str.rstrip('/')` on a character list. -/
def rstripSlash (cs : List Char) : List Char :=
  (cs.reverse.dropWhile (fun c => c = '/')).reverse

/-- `os.path.dirname` (posixpath): split at the last `/`; the head is
stripped of trailing slashes unless it consists only of slashes. -/
def dirname (p : String) : String :=
  let head := dropLastSeg p.data
  if head ≠ [] ∧ ¬ head.all (fun c => c = '/') then ⟨rstripSlash head⟩ else ⟨head⟩

/-- `os.path.basename` (posixpath): the characters after the last `/`. -/
def basenameStr (p : String) : String :=
  ⟨(p.data.reverse.takeWhile (fun c => c ≠ '/')).reverse⟩

/-- Python `path.split('/')` (keeps empty segments, like `str.split`). -/
def splitSlash (cs : List Char) : List (List Char) :=
  match cs with
  | [] => [[]]
  | c :: rest =>
    if c = '/' then [] :: splitSlash rest
    else match splitSlash rest with
         | [] => [[c]]
         | s :: ss => (c :: s) :: ss

/-- `get_file_info`'s companion `get_path_levels` (source lines 336-346):
`[level for level in path.split(os.sep) if level]`. -/
def get_path_levels (path : String) : List String :=
  ((splitSlash path.data).map (fun s => (⟨s⟩ : String))).filter (fun s => s ≠ "")

/-- A scan root the dialog supplies: a nonempty path not ending in `/`
(the native macOS directory picker returns such paths). -/
def goodAbs (p : String) : Bool :=
  match p.data.reverse with
  | [] => false
  | c :: _ => c ≠ '/'

/-- A legal filesystem entry name: nonempty, without the separator. -/
def wfName (n : String) : Bool :=
  n ≠ "" && n.data.all (fun c => c ≠ '/')

/-! ## Filesystem trees -/

/-- A regular file (or file symlink) as the scan observes it.  `statOk`
records whether `os.stat`/`os.path.getsize` succeed on it; `isLink`
whether `os.path.islink` is true. -/
structure FileEnt where
  name : String
  size : Nat
  isLink : Bool
  statOk : Bool
  btime : Nat
  mtime : Nat

mutual
/-- A directory: its direct files, named subdirectories, whether
`scandir`/listing succeeds (`listable`) and whether `os.stat` succeeds
(`statOk`), plus its timestamps. -/
inductive FSTree : Type where
  | node (files : List FileEnt) (subs : FSubs) (listable : Bool)
      (statOk : Bool) (btime : Nat) (mtime : Nat)

/-- The named subdirectories of a directory, in `scandir` order. -/
inductive FSubs : Type where
  | nil
  | cons (name : String) (t : FSTree) (rest : FSubs)
end

def FSTree.filesOf : FSTree → List FileEnt
  | .node fs _ _ _ _ _ => fs

def FSTree.subsOf : FSTree → FSubs
  | .node _ s _ _ _ _ => s

def FSTree.listableOf : FSTree → Bool
  | .node _ _ l _ _ _ => l

def FSTree.statOkOf : FSTree → Bool
  | .node _ _ _ s _ _ => s

def FSTree.btimeOf : FSTree → Nat
  | .node _ _ _ _ b _ => b

def FSTree.mtimeOf : FSTree → Nat
  | .node _ _ _ _ _ m => m

/-- The names listed in a subdirectory list. -/
def subsNames : FSubs → List String
  | .nil => []
  | .cons n _ rest => n :: subsNames rest

/-- List view of a subdirectory list. -/
def subsList : FSubs → List (String × FSTree)
  | .nil => []
  | .cons n t rest => (n, t) :: subsList rest

/-- No name occurs twice. -/
def nodupNames : List String → Bool
  | [] => true
  | n :: rest => !rest.contains n && nodupNames rest

mutual
/-- Well-formed tree: file and sibling-directory names are legal, and
sibling directory names are distinct. -/
def wfTree : FSTree → Bool
  | .node files subs _ _ _ _ =>
      files.all (fun f => wfName f.name) && nodupNames (subsNames subs) && wfSubs subs

def wfSubs : FSubs → Bool
  | .nil => true
  | .cons n t rest => wfName n && wfTree t && wfSubs rest
end

mutual
/-- Every file reachable anywhere in the tree has a working `stat`. -/
def allStatOk : FSTree → Bool
  | .node files subs _ _ _ _ =>
      files.all (fun f => f.statOk) && allStatOkSubs subs

def allStatOkSubs : FSubs → Bool
  | .nil => true
  | .cons _ t rest => allStatOk t && allStatOkSubs rest
end

/-! ## `os.walk` and `precompute_directory_sizes` (source lines 272-300) -/

mutual
/-- `os.walk(path)` in top-down order with `onerror=None`: a directory
whose listing fails is skipped silently together with its whole subtree;
a listable directory is yielded and then its subdirectories are walked
in order.  Each yielded element carries the directory's node, standing
for the `(root, dirs, files)` triple. -/
def osWalk (path : String) : FSTree → List (String × FSTree)
  | .node files subs listable statOk bt mt =>
      if listable then
        (path, FSTree.node files subs listable statOk bt mt) :: walkSubs path subs
      else []

def walkSubs (path : String) : FSubs → List (String × FSTree)
  | .nil => []
  | .cons n t rest => osWalk (joinPath path n) t ++ walkSubs path rest
end

/-- `sum(os.path.getsize(os.path.join(root, f)) for f in files if not
os.path.islink(os.path.join(root, f)))` under the `try`: the whole sum
raises (and the directory gets 0) as soon as one non-symlink file's
`getsize` fails; otherwise it is the sum of the non-symlink file sizes. -/
def dirDirectSize (files : List FileEnt) : Nat :=
  if files.any (fun f => !f.isLink && !f.statOk) then 0
  else ((files.filter (fun f => !f.isLink)).map FileEnt.size).sum

/-- Lookup in the `dir_sizes` dictionary (insertion-ordered assoc list). -/
def lookupStr (m : List (String × Nat)) (k : String) : Option Nat :=
  match m with
  | [] => none
  | e :: rest => if e.1 = k then some e.2 else lookupStr rest k

/-- `dir_sizes[k] += v` for a key already present. -/
def updAdd (m : List (String × Nat)) (k : String) (v : Nat) : List (String × Nat) :=
  m.map (fun e => if e.1 = k then (e.1, e.2 + v) else e)

/-- One iteration of the aggregation loop: `parent = os.path.dirname(path);
if parent != path and parent in dir_sizes: dir_sizes[parent] += dir_sizes[path]`. -/
def aggStep (m : List (String × Nat)) (path : String) : List (String × Nat) :=
  let parent := dirname path
  if parent ≠ path ∧ (lookupStr m parent).isSome then
    updAdd m parent ((lookupStr m path).getD 0)
  else m

/-- Insert into a length-descending list, after all entries of length ≥
the new one (so equal lengths keep their first-seen order, as Python's
stable `sorted(key=len, reverse=True)` does). -/
def insertLenDesc (l : List String) (x : String) : List String :=
  match l with
  | [] => [x]
  | y :: ys => if x.length ≤ y.length then y :: insertLenDesc ys x else x :: y :: ys

/-- `sorted(keys, key=len, reverse=True)`: stable sort by string length,
longest first. -/
def sortLenDesc (l : List String) : List String :=
  l.foldl insertLenDesc []

/-- `precompute_directory_sizes` (source lines 272-300): record each
walked directory's direct-file size, then add every recorded path's value
into its parent's entry, processing paths by string length descending. -/
def precompute_directory_sizes (root_path : String) (t : FSTree) : List (String × Nat) :=
  let dir_sizes := (osWalk root_path t).map (fun e => (e.1, dirDirectSize e.2.filesOf))
  let sorted_keys := sortLenDesc (dir_sizes.map Prod.fst)
  sorted_keys.foldl aggStep dir_sizes

/-! ## `get_file_info` (source lines 302-334) -/

/-- `os.path.splitext(basename)` restricted to its extension component
(genericpath._splitext with no separator in the input): the part of the
name from its last `.` on, but empty unless some character strictly
before that dot is not a dot (so names made of leading dots, such as
`.env`, have no extension). -/
def splitextExt (name : String) : String :=
  match name.data.reverse.dropWhile (fun c => c ≠ '.') with
  | [] => ""
  | _ :: beforeDot =>
      if beforeDot.any (fun c => c ≠ '.') then
        ⟨'.' :: (name.data.reverse.takeWhile (fun c => c ≠ '.')).reverse⟩
      else ""

/-- `file_type = ext[1:] if ext else "File"` for a non-directory entry. -/
def fileTypeLabel (basename : String) : String :=
  if splitextExt basename ≠ "" then ⟨(splitextExt basename).data.drop 1⟩ else "File"

/-- `"hidden" if basename.startswith('.') else "temporary" if
basename.startswith('~$') else "visible"`. -/
def hiddenLabel (basename : String) : String :=
  match basename.data with
  | '.' :: _ => "hidden"
  | '~' :: '$' :: _ => "temporary"
  | _ => "visible"

/-- What `get_file_info` returns on success (the tuple of line 332). -/
structure InfoTuple where
  created : Nat
  modified : Nat
  size : ℚ
  file_type : String
  hidden : String
  tags : String
  kind : String

/-- One entry the collection loop visits: a directory child (with its
node) or a file child, as classified by the walk's `dirs`/`files` lists. -/
inductive EntData : Type where
  | dirE (t : FSTree)
  | fileE (f : FileEnt)

/-- An entry together with its absolute path. -/
structure Item where
  path : String
  data : EntData

def Item.isDir : Item → Bool
  | ⟨_, .dirE _⟩ => true
  | ⟨_, .fileE _⟩ => false

/-- `get_file_info(path, directory_sizes)` (source lines 302-334):
`os.stat` first (`None` on failure); directories read their size from
the precomputed map (`.get(path, 0)`), files from `st_size`; both are
divided by 1024.  `tagsOf`/`kindOf` stand for the `mdls` calls, which
never raise. -/
def get_file_info (tagsOf kindOf : String → String) (directory_sizes : List (String × Nat))
    (it : Item) : Option InfoTuple :=
  match it.data with
  | .dirE t =>
      if t.statOkOf then
        some ⟨t.btimeOf, t.mtimeOf, ((lookupStr directory_sizes it.path).getD 0 : ℚ) / 1024,
          "Folder", hiddenLabel (basenameStr it.path), tagsOf it.path, kindOf it.path⟩
      else none
  | .fileE f =>
      if f.statOk then
        some ⟨f.btime, f.mtime, (f.size : ℚ) / 1024,
          fileTypeLabel (basenameStr it.path), hiddenLabel (basenameStr it.path),
          tagsOf it.path, kindOf it.path⟩
      else none

/-! ## The collection pass of `generate_excel` (source lines 448-470) -/

/-- The directory children of a walked directory, as items, in order. -/
def dirChildItems (path : String) : FSubs → List Item
  | .nil => []
  | .cons n t rest => ⟨joinPath path n, .dirE t⟩ :: dirChildItems path rest

/-- The file children of a walked directory, as items, in order. -/
def fileChildItems (path : String) (files : List FileEnt) : List Item :=
  files.map (fun f => ⟨joinPath path f.name, .fileE f⟩)

mutual
/-- The stream of entries `for root, dirs, files in os.walk: for item in
dirs + files` visits, in order: at each listable directory first its
subdirectory children, then its file children, then recursively the
children of each listable subdirectory. -/
def collectItems (path : String) : FSTree → List Item
  | .node files subs listable _ _ _ =>
      if listable then
        dirChildItems path subs ++ fileChildItems path files ++ collectSubs path subs
      else []

def collectSubs (path : String) : FSubs → List Item
  | .nil => []
  | .cons n t rest => collectItems (joinPath path n) t ++ collectSubs path rest
end

/-- One worksheet row (`row_data` of source line 460). -/
structure ScanRow where
  ordinal : Nat
  path : String
  size : ℚ
  created : Nat
  modified : Nat
  hidden : String
  tags : String
  kind : String
  file_type : String
  levels : List String

/-- The loop state of the collection pass: `row_number`, the worksheet
rows so far, and the `stats` counters it touches. -/
structure ScanState where
  row_number : Nat
  rows : List ScanRow
  directories : Nat
  files : Nat
  errors : Nat
  processed_items : Nat

/-- The loop body of source lines 452-468: a successful `get_file_info`
appends a row and bumps `row_number` and the kind counter, a failure
bumps `errors`; `processed_items` is bumped either way. -/
def stepItem (tagsOf kindOf : String → String) (directory_sizes : List (String × Nat))
    (s : ScanState) (it : Item) : ScanState :=
  match get_file_info tagsOf kindOf directory_sizes it with
  | some info =>
      { row_number := s.row_number + 1,
        rows := s.rows ++ [⟨s.row_number, it.path, info.size, info.created, info.modified,
          info.hidden, info.tags, info.kind, info.file_type, get_path_levels it.path⟩],
        directories := if it.isDir then s.directories + 1 else s.directories,
        files := if it.isDir then s.files else s.files + 1,
        errors := s.errors,
        processed_items := s.processed_items + 1 }
  | none =>
      { s with errors := s.errors + 1, processed_items := s.processed_items + 1 }

/-- The whole collection pass, from the initial `row_number, ... = 1, 0, 0`. -/
def runCollect (tagsOf kindOf : String → String) (directory_sizes : List (String × Nat))
    (items : List Item) : ScanState :=
  items.foldl (stepItem tagsOf kindOf directory_sizes) ⟨1, [], 0, 0, 0, 0⟩

/-- `count_files_and_max_levels` (source lines 348-368): the pre-scan
walks the same entry stream, counting entries and the maximum
`get_path_levels` length. -/
def count_files_and_max_levels (starting_directory : String) (t : FSTree) : Nat × Nat :=
  (collectItems starting_directory t).foldl
    (fun acc it => (acc.1 + 1, max acc.2 (get_path_levels it.path).length)) (0, 0)

/-- The final statistics dictionary of `generate_excel`. -/
structure ScanStats where
  directory : String
  output_file : String
  total_items : Nat
  max_levels : Nat
  processed_items : Nat
  directories : Nat
  files : Nat
  errors : Nat
  total_size_mb : ℚ

/-- `generate_excel` (source lines 411-492) without its GUI and
spreadsheet-formatting collaborators: a zero pre-scan count returns the
failure pair `(False, {})` (modelled as `none` statistics) before any
row is produced; otherwise the two passes run, `total_size_mb` is set
from the precomputed entry of the root, and the success flag reflects
whether `workbook.save` succeeded (`saveOk`, an external outcome).
The produced rows are returned alongside for the statements below. -/
def generate_excel (tagsOf kindOf : String → String) (starting_directory save_path : String)
    (t : FSTree) (saveOk : Bool) : (Bool × Option ScanStats) × List ScanRow :=
  let tm := count_files_and_max_levels starting_directory t
  if tm.1 = 0 then ((false, none), [])
  else
    let directory_sizes := precompute_directory_sizes starting_directory t
    let fin := runCollect tagsOf kindOf directory_sizes (collectItems starting_directory t)
    let stats : ScanStats :=
      ⟨starting_directory, save_path, tm.1, tm.2, fin.processed_items, fin.directories,
        fin.files, fin.errors, ((lookupStr directory_sizes starting_directory).getD 0 : ℚ) / (1024 * 1024)⟩
    ((saveOk, some stats), fin.rows)

/-! ## Auxiliary definitions for the statements -/

/-- The text after the last `.` of a name (the specification's reading
of "extension": used to compare the spec's words with the code). -/
def afterLastDot (name : String) : String :=
  ⟨(name.data.reverse.takeWhile (fun c => c ≠ '.')).reverse⟩

/-- The name contains a `.` preceded somewhere by a non-dot character
(the condition under which `os.path.splitext` grants an extension). -/
def hasStemAndDot (name : String) : Bool :=
  match name.data.reverse.dropWhile (fun c => c ≠ '.') with
  | [] => false
  | _ :: beforeDot => beforeDot.any (fun c => c ≠ '.')

/-- A file with its timestamp fields cleared. -/
def FileEnt.stripT (f : FileEnt) : FileEnt :=
  ⟨f.name, f.size, f.isLink, f.statOk, 0, 0⟩

mutual
/-- A tree with every timestamp field cleared: two trees with the same
`stripTime` image are "the same tree state modulo timestamps". -/
def stripTime : FSTree → FSTree
  | .node files subs l s _ _ => .node (files.map FileEnt.stripT) (stripTimeSubs subs) l s 0 0

def stripTimeSubs : FSubs → FSubs
  | .nil => .nil
  | .cons n t rest => .cons n (stripTime t) (stripTimeSubs rest)
end

/-- A row with its timestamp fields cleared. -/
def ScanRow.stripT (r : ScanRow) : ScanRow :=
  ⟨r.ordinal, r.path, r.size, 0, 0, r.hidden, r.tags, r.kind, r.file_type, r.levels⟩

/-- An item with the timestamps inside its node cleared. -/
def Item.stripT : Item → Item
  | ⟨p, .dirE t⟩ => ⟨p, .dirE (stripTime t)⟩
  | ⟨p, .fileE f⟩ => ⟨p, .fileE f.stripT⟩

/-- A metadata tuple with its timestamp fields cleared. -/
def InfoTuple.stripT (i : InfoTuple) : InfoTuple :=
  ⟨0, 0, i.size, i.file_type, i.hidden, i.tags, i.kind⟩

/-- A loop state whose rows have their timestamp fields cleared. -/
def ScanState.stripT (s : ScanState) : ScanState :=
  ⟨s.row_number, s.rows.map ScanRow.stripT, s.directories, s.files, s.errors, s.processed_items⟩

/-! ## Concrete trees used as witnesses -/

/-- `x.txt`, 1024 bytes. -/
def fileX : FileEnt := ⟨"x.txt", 1024, false, true, 11, 12⟩

/-- `y.txt`, 2048 bytes. -/
def fileY : FileEnt := ⟨"y.txt", 2048, false, true, 21, 22⟩

/-- The subdirectory `sub` of the specification's walkthrough scenario. -/
def subScenario : FSTree := .node [fileY] .nil true true 31 32

/-- The specification's walkthrough tree: root with `x.txt` (1024 bytes)
and subdirectory `sub` containing `y.txt` (2048 bytes). -/
def treeScenario : FSTree := .node [fileX] (.cons "sub" subScenario .nil) true true 41 42

/-- The walkthrough tree with different timestamps everywhere. -/
def treeScenarioLate : FSTree :=
  .node [⟨"x.txt", 1024, false, true, 911, 912⟩]
    (.cons "sub" (.node [⟨"y.txt", 2048, false, true, 921, 922⟩] .nil true true 931 932) .nil)
    true true 941 942

/-- An empty, readable directory. -/
def treeEmpty : FSTree := .node [] .nil true true 1 2

/-- A subdirectory whose listing fails (permission denied). -/
def subUnlistable : FSTree := .node [fileY] .nil false true 31 32

/-- A readable root holding `x.txt` and one unlistable subdirectory. -/
def treeUnlistableSub : FSTree := .node [fileX] (.cons "sub" subUnlistable .nil) true true 41 42

/-! ## Definitions used by the statements and proofs below -/

/-- `q` lies (weakly) below the child `n` of the directory at `path`. -/
def underName (path n q : String) : Prop :=
  ∃ rest, q.data = path.data ++ '/' :: (n.data ++ rest) ∧ (rest = [] ∨ ∃ s, rest = '/' :: s)

/-- The entry the size pass records for one walked directory. -/
def sizeEntry (e : String × FSTree) : String × Nat :=
  (e.1, dirDirectSize e.2.filesOf)

/-- The keys of the size dictionary: the walked directory paths. -/
def walkKeys (root : String) (t : FSTree) : List String :=
  (osWalk root t).map Prod.fst

/-- Fuel-indexed `dirname`-chain predicate: `q`'s credit reaches `p`
through recorded (`K`) and already-processed (`P`) intermediate paths.
Invoked with fuel `q.length`, which bounds the chain (each `dirname`
step strictly shortens the path). -/
def residesF : Nat → List String → List String → String → String → Bool
  | 0, _, _, q, p => q = p
  | fuel + 1, K, P, q, p =>
      if q = p then true
      else if dirname q ≠ q ∧ dirname q ∈ K ∧ q ∈ P then residesF fuel K P (dirname q) p
      else false

/-- `resides K P q p`: during the aggregation pass, after the paths in
`P` have been processed, the contribution of key `q`'s own entry has
been added into key `p`'s entry. -/
def resides (K P : List String) (q p : String) : Bool :=
  residesF q.length K P q p

/-- Sum of the recorded values of the entries currently residing at `p`. -/
def resSum (init : List (String × Nat)) (K P : List String) (p : String) : Nat :=
  ((init.filter (fun e => resides K P e.1 p)).map Prod.snd).sum

mutual
/-- The value the aggregation pass is expected to leave at a walked
directory: its own direct-file total plus, recursively, the totals of
its listable subdirectories (unlistable ones were never recorded). -/
def aggVal : FSTree → Nat
  | .node files subs _ _ _ _ => dirDirectSize files + aggValSubs subs

def aggValSubs : FSubs → Nat
  | .nil => 0
  | .cons _ t rest => (if t.listableOf then aggVal t else 0) + aggValSubs rest
end

mutual
/-- Total bytes of every non-symlink file the traversal can reach. -/
def reachableBytes : FSTree → Nat
  | .node files subs listable _ _ _ =>
      if listable then
        ((files.filter (fun f => !f.isLink)).map FileEnt.size).sum + reachableBytesSubs subs
      else 0

def reachableBytesSubs : FSubs → Nat
  | .nil => 0
  | .cons _ t rest => reachableBytes t + reachableBytesSubs rest
end

/-- The sum, over the immediate subdirectories of the directory at `p`,
of the stored size-map values of those that are present in the map
(absent subdirectories contribute nothing). -/
def childLookupSum (m : List (String × Nat)) (p : String) : FSubs → Nat
  | .nil => 0
  | .cons n _ rest => (lookupStr m (joinPath p n)).getD 0 + childLookupSum m p rest

/-! ## List helpers -/

theorem dropWhile_append_of_all {α : Type} (p : α → Bool) {a : List α} (b : List α)
    (h : ∀ c ∈ a, p c = true) : (a ++ b).dropWhile p = b.dropWhile p := by
  induction a with
  | nil => rfl
  | cons c cs ih =>
      have hc : p c = true := h c (by simp)
      simp [List.dropWhile, hc]
      exact ih (fun x hx => h x (by simp [hx]))

theorem takeWhile_append_of_all {α : Type} (p : α → Bool) {a : List α} (b : List α)
    (h : ∀ c ∈ a, p c = true) : (a ++ b).takeWhile p = a ++ b.takeWhile p := by
  induction a with
  | nil => rfl
  | cons c cs ih =>
      have hc : p c = true := h c (by simp)
      simp [List.takeWhile, hc]
      exact ih (fun x hx => h x (by simp [hx]))

theorem length_dropWhile_le {α : Type} (p : α → Bool) (l : List α) :
    (l.dropWhile p).length ≤ l.length := by
  induction l with
  | nil => simp
  | cons c cs ih =>
      by_cases hc : p c = true
      · simp [List.dropWhile, hc]; omega
      · simp [List.dropWhile, hc]

theorem dropWhile_eq_self_of_length {α : Type} (p : α → Bool) (l : List α)
    (h : (l.dropWhile p).length = l.length) : l.dropWhile p = l := by
  induction l with
  | nil => rfl
  | cons c cs _ =>
      by_cases hc : p c = true
      · exfalso
        have := length_dropWhile_le p cs
        simp [List.dropWhile, hc] at h
        omega
      · simp [List.dropWhile, hc]

theorem dropWhile_head_pred_false {α : Type} {p : α → Bool} {l rest : List α} {c : α}
    (h : l.dropWhile p = c :: rest) : p c = false := by
  induction l with
  | nil => simp at h
  | cons d ds ih =>
      by_cases hd : p d = true
      · simp [List.dropWhile, hd] at h; exact ih h
      · simp [List.dropWhile, hd] at h
        rw [← h.1]
        simp [hd]

/-! ## Path algebra -/

theorem string_eq_iff_data {s t : String} : s = t ↔ s.data = t.data :=
  ⟨fun h => h ▸ rfl, String.ext⟩

theorem data_ne_nil_of_goodAbs {p : String} (h : goodAbs p = true) : p.data ≠ [] := by
  unfold goodAbs at h
  intro hd
  rw [hd] at h
  simp at h

theorem goodAbs_elim {p : String} (h : goodAbs p = true) :
    ∃ c cs, p.data.reverse = c :: cs ∧ c ≠ '/' := by
  unfold goodAbs at h
  cases hrev : p.data.reverse with
  | nil => rw [hrev] at h; simp at h
  | cons c cs =>
      rw [hrev] at h
      refine ⟨c, cs, rfl, ?_⟩
      by_cases hc : c = '/'
      · subst hc; simp at h
      · exact hc

theorem wfName_elim {n : String} (h : wfName n = true) :
    n.data ≠ [] ∧ ∀ c ∈ n.data, c ≠ '/' := by
  unfold wfName at h
  simp only [Bool.and_eq_true, decide_eq_true_eq, List.all_eq_true] at h
  refine ⟨?_, h.2⟩
  intro hd
  exact h.1 (String.ext hd)

theorem joinPath_eq {p n : String} (hp : goodAbs p = true) (hn : wfName n = true) :
    joinPath p n = ⟨p.data ++ '/' :: n.data⟩ := by
  obtain ⟨hne, hall⟩ := wfName_elim hn
  obtain ⟨c, cs, hrev, hc⟩ := goodAbs_elim hp
  have hstart : startsWithSlash n = false := by
    unfold startsWithSlash
    cases hd : n.data with
    | nil => exact absurd hd hne
    | cons d ds =>
        have : d ≠ '/' := hall d (by simp [hd])
        simp [this]
  have hpne : ¬ p = "" := by
    intro h
    subst h
    simp at hrev
  have hend : endsWithSlash p = false := by
    unfold endsWithSlash
    rw [hrev]
    simp [hc]
  unfold joinPath
  rw [hstart, hend]
  simp only [Bool.false_eq_true, if_false, hpne, false_or, if_false]
  apply String.ext
  show (p ++ "/" ++ n).data = p.data ++ '/' :: n.data
  rw [String.data_append, String.data_append]
  simp

theorem goodAbs_join {p n : String} (hn : wfName n = true) :
    goodAbs (⟨p.data ++ '/' :: n.data⟩ : String) = true := by
  obtain ⟨hne, hall⟩ := wfName_elim hn
  unfold goodAbs
  simp only [List.reverse_append, List.reverse_cons]
  cases hd : n.data.reverse with
  | nil => exact absurd (by simpa using congrArg List.reverse hd) hne
  | cons e es =>
      have he : e ∈ n.data := by
        have : e ∈ n.data.reverse := by rw [hd]; simp
        simpa using this
      simp [hall e he]

theorem length_join (p : String) (n : String) :
    (⟨p.data ++ '/' :: n.data⟩ : String).length = p.length + 1 + n.length := by
  show (p.data ++ '/' :: n.data).length = p.data.length + 1 + n.data.length
  simp
  omega

theorem dirname_join {p n : String} (hp : goodAbs p = true) (hn : wfName n = true) :
    dirname (⟨p.data ++ '/' :: n.data⟩ : String) = p := by
  obtain ⟨hne, hall⟩ := wfName_elim hn
  obtain ⟨c, cs, hrev, hc⟩ := goodAbs_elim hp
  have hhead : dropLastSeg (p.data ++ '/' :: n.data) = p.data ++ ['/'] := by
    unfold dropLastSeg
    rw [List.reverse_append, List.reverse_cons]
    rw [List.append_assoc]
    rw [dropWhile_append_of_all _ _ (by
      intro x hx
      have : x ∈ n.data := by simpa using hx
      simp [hall x this])]
    simp [List.dropWhile]
  unfold dirname
  simp only [hhead]
  have hnonempty : p.data ++ ['/'] ≠ [] := by simp
  have hnotall : ¬ (p.data ++ ['/']).all (fun c => c = '/') := by
    intro h
    rw [List.all_eq_true] at h
    have hcmem : c ∈ p.data := by
      have : c ∈ p.data.reverse := by rw [hrev]; simp
      simpa using this
    have := h c (by simp [hcmem])
    simp at this
    exact hc this
  rw [if_pos ⟨hnonempty, hnotall⟩]
  apply String.ext
  show rstripSlash (p.data ++ ['/']) = p.data
  unfold rstripSlash
  rw [List.reverse_append]
  simp only [List.reverse_cons, List.reverse_nil, List.nil_append, List.singleton_append]
  rw [List.dropWhile]
  simp only [decide_True]
  rw [hrev, List.dropWhile]
  simp only [hc, decide_False]
  rw [← hrev]
  simp

theorem basename_join {p n : String} (hn : wfName n = true) :
    basenameStr (⟨p.data ++ '/' :: n.data⟩ : String) = n := by
  obtain ⟨_, hall⟩ := wfName_elim hn
  unfold basenameStr
  apply String.ext
  show ((p.data ++ '/' :: n.data).reverse.takeWhile (fun c => c ≠ '/')).reverse = n.data
  rw [List.reverse_append, List.reverse_cons, List.append_assoc]
  rw [takeWhile_append_of_all _ _ (by
    intro x hx
    have : x ∈ n.data := by simpa using hx
    simp [hall x this])]
  simp [List.takeWhile]

theorem dirname_length_lt {p : String} (h : dirname p ≠ p) :
    (dirname p).length < p.length := by
  by_cases hbranch : dropLastSeg p.data ≠ [] ∧ ¬ (dropLastSeg p.data).all (fun c => c = '/')
  · have hd : dirname p = ⟨rstripSlash (dropLastSeg p.data)⟩ := by
      unfold dirname
      rw [if_pos hbranch]
    rw [hd]
    show (rstripSlash (dropLastSeg p.data)).length < p.data.length
    have h1 : (dropLastSeg p.data).length ≤ p.data.length := by
      unfold dropLastSeg
      simp only [List.length_reverse]
      calc ((p.data.reverse).dropWhile (fun c => c ≠ '/')).length
          ≤ p.data.reverse.length := length_dropWhile_le _ _
        _ = p.data.length := by simp
    have h2 : (rstripSlash (dropLastSeg p.data)).length ≤ (dropLastSeg p.data).length := by
      unfold rstripSlash
      simp only [List.length_reverse]
      calc (((dropLastSeg p.data).reverse).dropWhile (fun c => c = '/')).length
          ≤ (dropLastSeg p.data).reverse.length := length_dropWhile_le _ _
        _ = (dropLastSeg p.data).length := by simp
    rcases Nat.lt_or_ge ((rstripSlash (dropLastSeg p.data)).length) p.data.length with hlt | hge
    · exact hlt
    · exfalso
      have e1 : (dropLastSeg p.data).length = p.data.length := by omega
      have e2 : (rstripSlash (dropLastSeg p.data)).length = (dropLastSeg p.data).length := by omega
      -- the head part is all of `p`, so `p` ends with `/`; but then rstrip strips it
      have hseg : dropLastSeg p.data = p.data := by
        unfold dropLastSeg at e1 ⊢
        have : ((p.data.reverse).dropWhile (fun c => c ≠ '/')).length = p.data.reverse.length := by
          simp only [List.length_reverse] at e1 ⊢
          omega
        rw [dropWhile_eq_self_of_length _ _ this]
        simp
      have hdw2 : ((dropLastSeg p.data).reverse).dropWhile (fun c => c = '/')
          = (dropLastSeg p.data).reverse := by
        apply dropWhile_eq_self_of_length
        unfold rstripSlash at e2
        simp only [List.length_reverse] at e2 ⊢
        omega
      -- `dropLastSeg` output, when nonempty, ends in '/',
      -- while an un-stripped list cannot: contradiction
      cases hrr : (dropLastSeg p.data).reverse with
      | nil =>
          have : dropLastSeg p.data = [] := by
            have := congrArg List.reverse hrr
            simpa using this
          exact hbranch.1 this
      | cons c cs =>
          have hrr1 : (p.data.reverse).dropWhile (fun c => c ≠ '/') = c :: cs := by
            have he : (dropLastSeg p.data).reverse
                = (p.data.reverse).dropWhile (fun c => c ≠ '/') := by
              unfold dropLastSeg
              simp
            rw [← he, hrr]
          have hc1 : decide (c ≠ '/') = false :=
            dropWhile_head_pred_false (p := fun c => decide (c ≠ '/')) hrr1
          have hrr2 : ((dropLastSeg p.data).reverse).dropWhile (fun c => c = '/') = c :: cs := by
            rw [hdw2, hrr]
          have hc2 : decide (c = '/') = false :=
            dropWhile_head_pred_false (p := fun c => decide (c = '/')) hrr2
          simp at hc1 hc2
          exact hc2 hc1
  · have hd : dirname p = ⟨dropLastSeg p.data⟩ := by
      unfold dirname
      rw [if_neg hbranch]
    rw [hd] at h ⊢
    show (dropLastSeg p.data).length < p.data.length
    have h1 : (dropLastSeg p.data).length ≤ p.data.length := by
      unfold dropLastSeg
      simp only [List.length_reverse]
      calc ((p.data.reverse).dropWhile (fun c => c ≠ '/')).length
          ≤ p.data.reverse.length := length_dropWhile_le _ _
        _ = p.data.length := by simp
    rcases Nat.lt_or_ge ((dropLastSeg p.data).length) p.data.length with hlt | hge
    · exact hlt
    · exfalso
      apply h
      apply String.ext
      show dropLastSeg p.data = p.data
      unfold dropLastSeg at h1 hge ⊢
      have : ((p.data.reverse).dropWhile (fun c => c ≠ '/')).length = p.data.reverse.length := by
        simp only [List.length_reverse] at h1 hge ⊢
        omega
      rw [dropWhile_eq_self_of_length _ _ this]
      simp

/-! ## Segment injectivity -/

theorem takeWhile_name {n : String} {rest : List Char} (hn : wfName n = true)
    (hr : rest = [] ∨ ∃ s, rest = '/' :: s) :
    (n.data ++ rest).takeWhile (fun c => c ≠ '/') = n.data := by
  obtain ⟨_, hall⟩ := wfName_elim hn
  rw [takeWhile_append_of_all _ _ (by intro x hx; simp [hall x hx])]
  rcases hr with h | ⟨s, h⟩ <;> subst h <;> simp [List.takeWhile]

theorem seg_inj {n₁ n₂ : String} {r₁ r₂ : List Char}
    (h₁ : wfName n₁ = true) (h₂ : wfName n₂ = true)
    (e₁ : r₁ = [] ∨ ∃ s, r₁ = '/' :: s) (e₂ : r₂ = [] ∨ ∃ s, r₂ = '/' :: s)
    (h : n₁.data ++ r₁ = n₂.data ++ r₂) : n₁ = n₂ ∧ r₁ = r₂ := by
  have hdata : n₁.data = n₂.data := by
    have t1 := takeWhile_name h₁ e₁
    have t2 := takeWhile_name h₂ e₂
    rw [h] at t1
    rw [t2] at t1
    exact t1.symm
  refine ⟨String.ext hdata, ?_⟩
  rw [hdata] at h
  exact List.append_cancel_left h

theorem underName_inj {path n₁ n₂ q : String} (h₁ : wfName n₁ = true) (h₂ : wfName n₂ = true)
    (u₁ : underName path n₁ q) (u₂ : underName path n₂ q) : n₁ = n₂ := by
  obtain ⟨r₁, hq₁, hr₁⟩ := u₁
  obtain ⟨r₂, hq₂, hr₂⟩ := u₂
  rw [hq₁] at hq₂
  have := @List.append_cancel_left _ (path.data ++ ['/']) _ _ (by simpa using hq₂)
  exact (seg_inj h₁ h₂ hr₁ hr₂ this).1

theorem underName_length {path n q : String} (u : underName path n q) (hn : wfName n = true) :
    path.length < q.length := by
  obtain ⟨hne, _⟩ := wfName_elim hn
  obtain ⟨rest, hq, _⟩ := u
  have hlen : q.data.length = path.data.length + 1 + n.data.length + rest.length := by
    rw [hq]; simp; omega
  have hn0 : 0 < n.data.length := List.length_pos.mpr hne
  show path.data.length < q.data.length
  omega

/-! ## Walk structure lemmas -/

/-- Generic: in a list with distinct keys, the value of a key is unique. -/
theorem keyval_unique {α β : Type} {l : List (α × β)} {a : α} {b b' : β}
    (hnd : (l.map Prod.fst).Nodup) (h : (a, b) ∈ l) (h' : (a, b') ∈ l) : b = b' := by
  induction l with
  | nil => simp at h
  | cons e rest ih =>
      rw [List.map_cons, List.nodup_cons] at hnd
      rcases List.mem_cons.mp h with he | he
      · rcases List.mem_cons.mp h' with he' | he'
        · have : (a, b) = (a, b') := he.trans he'.symm
          exact congrArg Prod.snd this
        · exfalso
          apply hnd.1
          rw [← he]
          exact List.mem_map.mpr ⟨(a, b'), he', rfl⟩
      · rcases List.mem_cons.mp h' with he' | he'
        · exfalso
          apply hnd.1
          rw [← he']
          exact List.mem_map.mpr ⟨(a, b), he, rfl⟩
        · exact ih hnd.2 he he'

theorem wfTree_elim {files subs l s b m} (h : wfTree (.node files subs l s b m) = true) :
    nodupNames (subsNames subs) = true ∧ wfSubs subs = true := by
  unfold wfTree at h
  rw [Bool.and_eq_true, Bool.and_eq_true] at h
  exact ⟨h.1.2, h.2⟩

theorem wfTree_files {files subs l s b m} (h : wfTree (.node files subs l s b m) = true) :
    ∀ f ∈ files, wfName f.name = true := by
  unfold wfTree at h
  rw [Bool.and_eq_true, Bool.and_eq_true] at h
  have := h.1.1
  rw [List.all_eq_true] at this
  exact this

theorem wfSubs_elim {n t rest} (h : wfSubs (.cons n t rest) = true) :
    wfName n = true ∧ wfTree t = true ∧ wfSubs rest = true := by
  unfold wfSubs at h
  rw [Bool.and_eq_true, Bool.and_eq_true] at h
  exact ⟨h.1.1, h.1.2, h.2⟩

theorem nodupNames_elim {x l} (h : nodupNames (x :: l) = true) :
    x ∉ l ∧ nodupNames l = true := by
  unfold nodupNames at h
  rw [Bool.and_eq_true] at h
  obtain ⟨h1, h2⟩ := h
  refine ⟨?_, h2⟩
  intro hmem
  rw [Bool.not_eq_true'] at h1
  simp at h1
  exact h1 hmem

theorem mem_subsNames {n : String} {t : FSTree} (s : FSubs) (h : (n, t) ∈ subsList s) :
    n ∈ subsNames s := by
  cases s with
  | nil => simp [subsList] at h
  | cons n' t' rest =>
      have h' : (n, t) ∈ (n', t') :: subsList rest := h
      rcases List.mem_cons.mp h' with he | he
      · rw [show n = n' from congrArg Prod.fst he]
        simp [subsNames]
      · simp [subsNames]
        right
        exact mem_subsNames rest he

theorem underName_of_eq_join {path n q : String} (hg : goodAbs path = true)
    (hn : wfName n = true) (h : q = joinPath path n) : underName path n q := by
  refine ⟨[], ?_, Or.inl rfl⟩
  rw [h, joinPath_eq hg hn]
  simp

theorem underName_of_deeper {path n n' q : String} (hg : goodAbs path = true)
    (hn : wfName n = true) (h : underName (joinPath path n) n' q) : underName path n q := by
  obtain ⟨rest, hq, _⟩ := h
  rw [joinPath_eq hg hn] at hq
  refine ⟨'/' :: (n'.data ++ rest), ?_, Or.inr ⟨_, rfl⟩⟩
  rw [hq]
  simp

mutual
theorem walk_entry_facts (path : String) (t : FSTree)
    (hg : goodAbs path = true) (hw : wfTree t = true) :
    ∀ e ∈ osWalk path t,
      goodAbs e.1 = true ∧ wfTree e.2 = true ∧ e.2.listableOf = true ∧
      (e = (path, t) ∨
        ∃ n t', (n, t') ∈ subsList t.subsOf ∧ wfName n = true ∧ underName path n e.1) := by
  cases t with
  | node files subs listable statOk bt mt =>
      intro e he
      unfold osWalk at he
      by_cases hl : listable = true
      · rw [if_pos hl] at he
        rcases List.mem_cons.mp he with h | h
        · subst h
          exact ⟨hg, hw, by simpa [FSTree.listableOf] using hl, Or.inl rfl⟩
        · obtain ⟨hgq, hwq, hlq, n, t', hmem, hn, hu⟩ :=
            walkSubs_entry_facts path subs hg (wfTree_elim hw).2 e h
          exact ⟨hgq, hwq, hlq, Or.inr ⟨n, t', by simpa [FSTree.subsOf] using hmem, hn, hu⟩⟩
      · rw [if_neg hl] at he
        simp at he

theorem walkSubs_entry_facts (path : String) (s : FSubs)
    (hg : goodAbs path = true) (hw : wfSubs s = true) :
    ∀ e ∈ walkSubs path s,
      goodAbs e.1 = true ∧ wfTree e.2 = true ∧ e.2.listableOf = true ∧
      ∃ n t', (n, t') ∈ subsList s ∧ wfName n = true ∧ underName path n e.1 := by
  cases s with
  | nil => intro e he; simp [walkSubs] at he
  | cons n t rest =>
      intro e he
      unfold walkSubs at he
      obtain ⟨hn, hwt, hwr⟩ := wfSubs_elim hw
      rcases List.mem_append.mp he with h | h
      · have hgj : goodAbs (joinPath path n) = true := by
          rw [joinPath_eq hg hn]
          exact goodAbs_join hn
        obtain ⟨hgq, hwq, hlq, hcase⟩ := walk_entry_facts (joinPath path n) t hgj hwt e h
        refine ⟨hgq, hwq, hlq, n, t, by simp [subsList], hn, ?_⟩
        rcases hcase with hroot | ⟨n', t', _, hn', hu⟩
        · exact underName_of_eq_join hg hn (congrArg Prod.fst hroot)
        · exact underName_of_deeper hg hn hu
      · obtain ⟨hgq, hwq, hlq, n', t', hmem, hn', hu⟩ :=
          walkSubs_entry_facts path rest hg hwr e h
        exact ⟨hgq, hwq, hlq, n', t', by simp [subsList, hmem], hn', hu⟩
end

mutual
theorem walk_keys_nodup (path : String) (t : FSTree)
    (hg : goodAbs path = true) (hw : wfTree t = true) :
    ((osWalk path t).map Prod.fst).Nodup := by
  cases t with
  | node files subs listable statOk bt mt =>
      unfold osWalk
      by_cases hl : listable = true
      · rw [if_pos hl]
        rw [List.map_cons, List.nodup_cons]
        obtain ⟨hnd, hws⟩ := wfTree_elim hw
        constructor
        · show path ∉ (walkSubs path subs).map Prod.fst
          intro hmem
          obtain ⟨e, he, hfst⟩ := List.mem_map.mp hmem
          obtain ⟨_, _, _, n, t', _, hn, hu⟩ := walkSubs_entry_facts path subs hg hws e he
          have := underName_length hu hn
          rw [hfst] at this
          omega
        · exact walkSubs_keys_nodup path subs hg hws hnd
      · rw [if_neg hl]
        simp

theorem walkSubs_keys_nodup (path : String) (s : FSubs)
    (hg : goodAbs path = true) (hw : wfSubs s = true)
    (hnd : nodupNames (subsNames s) = true) :
    ((walkSubs path s).map Prod.fst).Nodup := by
  cases s with
  | nil => simp [walkSubs]
  | cons n t rest =>
      unfold walkSubs
      rw [List.map_append]
      obtain ⟨hn, hwt, hwr⟩ := wfSubs_elim hw
      obtain ⟨hnotin, hndr⟩ := nodupNames_elim (by simpa [subsNames] using hnd)
      have hgj : goodAbs (joinPath path n) = true := by
        rw [joinPath_eq hg hn]
        exact goodAbs_join hn
      apply List.Nodup.append
      · exact walk_keys_nodup (joinPath path n) t hgj hwt
      · exact walkSubs_keys_nodup path rest hg hwr hndr
      · intro q hq1 hq2
        obtain ⟨e, he, hfst⟩ := List.mem_map.mp hq1
        obtain ⟨e', he', hfst'⟩ := List.mem_map.mp hq2
        obtain ⟨_, _, _, hcase⟩ := walk_entry_facts (joinPath path n) t hgj hwt e he
        have hu1 : underName path n q := by
          rcases hcase with hroot | ⟨n', t', _, hn', hu⟩
          · rw [← hfst]
            exact underName_of_eq_join hg hn (congrArg Prod.fst hroot)
          · rw [← hfst]
            exact underName_of_deeper hg hn hu
        obtain ⟨_, _, _, n'', t'', hmem'', hn'', hu''⟩ :=
          walkSubs_entry_facts path rest hg hwr e' he'
        have hu2 : underName path n'' q := by rw [← hfst']; exact hu''
        have : n = n'' := underName_inj hn hn'' hu1 hu2
        exact hnotin (this ▸ mem_subsNames rest hmem'')
end

/-! ## Collection-loop invariants -/

theorem stepItem_cases (tagsOf kindOf : String → String) (sizes : List (String × Nat))
    (s : ScanState) (it : Item) :
    (∃ info, get_file_info tagsOf kindOf sizes it = some info ∧
      stepItem tagsOf kindOf sizes s it =
        { row_number := s.row_number + 1,
          rows := s.rows ++ [⟨s.row_number, it.path, info.size, info.created, info.modified,
            info.hidden, info.tags, info.kind, info.file_type, get_path_levels it.path⟩],
          directories := if it.isDir then s.directories + 1 else s.directories,
          files := if it.isDir then s.files else s.files + 1,
          errors := s.errors,
          processed_items := s.processed_items + 1 }) ∨
    (get_file_info tagsOf kindOf sizes it = none ∧
      stepItem tagsOf kindOf sizes s it =
        { s with errors := s.errors + 1, processed_items := s.processed_items + 1 }) := by
  cases h : get_file_info tagsOf kindOf sizes it with
  | some info =>
      left
      exact ⟨info, rfl, by unfold stepItem; rw [h]⟩
  | none =>
      right
      exact ⟨rfl, by unfold stepItem; rw [h]⟩

theorem foldl_counts (tagsOf kindOf : String → String) (sizes : List (String × Nat))
    (items : List Item) (s : ScanState) :
    (items.foldl (stepItem tagsOf kindOf sizes) s).errors
        + (items.foldl (stepItem tagsOf kindOf sizes) s).directories
        + (items.foldl (stepItem tagsOf kindOf sizes) s).files
      = s.errors + s.directories + s.files + items.length ∧
    (items.foldl (stepItem tagsOf kindOf sizes) s).processed_items
      = s.processed_items + items.length := by
  induction items generalizing s with
  | nil => simp
  | cons it rest ih =>
      simp only [List.foldl_cons, List.length_cons]
      rcases stepItem_cases tagsOf kindOf sizes s it with ⟨info, _, heq⟩ | ⟨_, heq⟩
      · rw [heq]
        obtain ⟨c1, c2⟩ := ih _
        constructor
        · rw [c1]; by_cases hd : it.isDir = true <;> simp [hd] <;> omega
        · rw [c2]; simp; omega
      · rw [heq]
        obtain ⟨c1, c2⟩ := ih _
        constructor
        · rw [c1]; simp; omega
        · rw [c2]; simp; omega

theorem foldl_rows_inv (tagsOf kindOf : String → String) (sizes : List (String × Nat))
    (items : List Item) (s : ScanState)
    (h1 : s.row_number = s.rows.length + 1)
    (h2 : s.rows.map ScanRow.ordinal = List.range' 1 s.rows.length)
    (h3 : s.rows.length = s.directories + s.files) :
    (items.foldl (stepItem tagsOf kindOf sizes) s).row_number
        = (items.foldl (stepItem tagsOf kindOf sizes) s).rows.length + 1 ∧
    (items.foldl (stepItem tagsOf kindOf sizes) s).rows.map ScanRow.ordinal
        = List.range' 1 (items.foldl (stepItem tagsOf kindOf sizes) s).rows.length ∧
    (items.foldl (stepItem tagsOf kindOf sizes) s).rows.length
        = (items.foldl (stepItem tagsOf kindOf sizes) s).directories
          + (items.foldl (stepItem tagsOf kindOf sizes) s).files := by
  induction items generalizing s with
  | nil => exact ⟨h1, h2, h3⟩
  | cons it rest ih =>
      simp only [List.foldl_cons]
      rcases stepItem_cases tagsOf kindOf sizes s it with ⟨info, _, heq⟩ | ⟨_, heq⟩
      · rw [heq]
        apply ih
        · simp; omega
        · simp only [List.map_append, List.length_append, List.map_cons, List.map_nil,
            List.length_cons, List.length_nil]
          rw [h2, h1]
          have : s.rows.length + (0 + 1) = s.rows.length + 1 := by omega
          rw [this, List.range'_1_concat]
          simp
          omega
        · by_cases hd : it.isDir = true <;> simp [hd] <;> omega
      · rw [heq]
        exact ih _ h1 h2 h3

/-! ## Claims C4, C5, C6, C8 -/

/-- C4: in every run of the collection pass the ordinals of the emitted
rows form the dense sequence `1..K` with no gaps, where `K` is the
number of emitted rows, regardless of how many entries errored. -/
theorem claim_C4 (tagsOf kindOf : String → String) (sizes : List (String × Nat))
    (items : List Item) :
    (runCollect tagsOf kindOf sizes items).rows.map ScanRow.ordinal
      = List.range' 1 (runCollect tagsOf kindOf sizes items).rows.length :=
  (foldl_rows_inv tagsOf kindOf sizes items ⟨1, [], 0, 0, 0, 0⟩ (by simp) (by simp) (by simp)).2.1

/-- C5: at the end of the collection pass over any tree, the error
counter plus the directory and file counters equals the number of
entries the traversal visited, every visited entry being accounted
exactly once (one row per directory/file count, one error otherwise). -/
theorem claim_C5 (tagsOf kindOf : String → String) (sizes : List (String × Nat))
    (root : String) (t : FSTree) :
    (runCollect tagsOf kindOf sizes (collectItems root t)).errors
        + ((runCollect tagsOf kindOf sizes (collectItems root t)).directories
          + (runCollect tagsOf kindOf sizes (collectItems root t)).files)
      = (collectItems root t).length ∧
    (runCollect tagsOf kindOf sizes (collectItems root t)).processed_items
      = (collectItems root t).length ∧
    (runCollect tagsOf kindOf sizes (collectItems root t)).rows.length
      = (runCollect tagsOf kindOf sizes (collectItems root t)).directories
        + (runCollect tagsOf kindOf sizes (collectItems root t)).files := by
  unfold runCollect
  obtain ⟨c1, c2⟩ := foldl_counts tagsOf kindOf sizes (collectItems root t) ⟨1, [], 0, 0, 0, 0⟩
  obtain ⟨_, _, r3⟩ :=
    foldl_rows_inv tagsOf kindOf sizes (collectItems root t) ⟨1, [], 0, 0, 0, 0⟩
      (by simp) (by simp) (by simp)
  simp only [ScanState.errors, ScanState.directories, ScanState.files,
    ScanState.processed_items, Nat.zero_add] at c1 c2
  exact ⟨by omega, by simpa using c2, r3⟩

/-- C6: a tree in which the pre-scan finds zero items makes the pipeline
return the explicit failure pair (flag `False` with an empty statistics
payload) and emit no rows at all. -/
theorem claim_C6 (tagsOf kindOf : String → String) (sd sp : String) (t : FSTree) (saveOk : Bool)
    (h : (count_files_and_max_levels sd t).1 = 0) :
    generate_excel tagsOf kindOf sd sp t saveOk = ((false, none), []) := by
  unfold generate_excel
  simp [h]

/-- C6 witness: the empty readable directory. -/
theorem claim_C6_witness :
    (count_files_and_max_levels "/scan" treeEmpty).1 = 0 ∧
    generate_excel (fun _ => "") (fun _ => "") "/scan" "/out.xlsx" treeEmpty true
      = ((false, none), []) :=
  ⟨rfl, claim_C6 (fun _ => "") (fun _ => "") "/scan" "/out.xlsx" treeEmpty true rfl⟩

/-- C8: whenever the pipeline reaches its statistics (nonzero pre-scan
count), `total_size_mb` is the precomputed size-map entry of the root
path converted from bytes to megabytes — not a sum over emitted rows. -/
theorem claim_C8 (tagsOf kindOf : String → String) (sd sp : String) (t : FSTree) (saveOk : Bool)
    (h : (count_files_and_max_levels sd t).1 ≠ 0) :
    Option.map ScanStats.total_size_mb (generate_excel tagsOf kindOf sd sp t saveOk).1.2
      = some (((lookupStr (precompute_directory_sizes sd t) sd).getD 0 : ℚ) / (1024 * 1024)) := by
  unfold generate_excel
  simp [h]

/-- C8 witness: the walkthrough tree (3072 bytes under the root). -/
theorem claim_C8_witness :
    (count_files_and_max_levels "/scan" treeScenario).1 ≠ 0 ∧
    Option.map ScanStats.total_size_mb
        (generate_excel (fun _ => "") (fun _ => "") "/scan" "/out.xlsx" treeScenario true).1.2
      = some (((lookupStr (precompute_directory_sizes "/scan" treeScenario) "/scan").getD 0 : ℚ)
          / (1024 * 1024)) :=
  ⟨by decide,
   claim_C8 (fun _ => "") (fun _ => "") "/scan" "/out.xlsx" treeScenario true (by decide)⟩

/-! ## Claim C7 -/

theorem splitextExt_of_stem (name : String) (h : hasStemAndDot name = true) :
    splitextExt name
      = ⟨'.' :: (name.data.reverse.takeWhile (fun c => c ≠ '.')).reverse⟩ := by
  unfold hasStemAndDot at h
  unfold splitextExt
  cases hdrop : name.data.reverse.dropWhile (fun c => c ≠ '.') with
  | nil => rw [hdrop] at h; simp at h
  | cons c before =>
      rw [hdrop] at h
      have h' : (before.any fun c => decide (c ≠ '.')) = true := h
      simp at h'
      simp [h']

theorem splitextExt_of_no_stem (name : String) (h : hasStemAndDot name = false) :
    splitextExt name = "" := by
  unfold hasStemAndDot at h
  unfold splitextExt
  cases hdrop : name.data.reverse.dropWhile (fun c => c ≠ '.') with
  | nil => rfl
  | cons c before =>
      rw [hdrop] at h
      have h' : (before.any fun c => decide (c ≠ '.')) = false := h
      simp at h'
      simp [h']
      intro x hx hne
      exact absurd (h' x hx) hne

theorem fileTypeLabel_eq (name : String) :
    fileTypeLabel name
      = if hasStemAndDot name then afterLastDot name else "File" := by
  by_cases hstem : hasStemAndDot name = true
  · rw [if_pos hstem]
    unfold fileTypeLabel
    rw [splitextExt_of_stem name hstem]
    have hne : (⟨'.' :: (name.data.reverse.takeWhile (fun c => c ≠ '.')).reverse⟩ : String)
        ≠ "" := by
      intro hcontra
      have := congrArg String.data hcontra
      simp at this
    rw [if_pos hne]
    unfold afterLastDot
    apply String.ext
    simp
  · rw [if_neg hstem]
    unfold fileTypeLabel
    rw [splitextExt_of_no_stem name (Bool.not_eq_true _ ▸ hstem)]
    simp

/-- C7 counterexample: the claim reads the entry-type label of every
dotted basename as the text after its last dot, but `os.path.splitext`
grants no extension to a name whose only non-leading-dot content follows
the dots, so the hidden file `.env` is labelled `File`, not `env`. -/
theorem claim_C7_counterexample :
    Option.map InfoTuple.file_type
        (get_file_info (fun _ => "") (fun _ => "") []
          ⟨"/scan/.env", .fileE ⟨".env", 10, false, true, 0, 0⟩⟩) = some "File" ∧
    afterLastDot ".env" = "env" ∧
    ".env".data.contains '.' = true ∧
    ("File" : String) ≠ "env" := by
  refine ⟨rfl, rfl, rfl, by decide⟩

theorem get_file_info_dirE (tagsOf kindOf : String → String) (sizes : List (String × Nat))
    (path : String) (t : FSTree) :
    get_file_info tagsOf kindOf sizes ⟨path, .dirE t⟩
      = if t.statOkOf = true then
          some ⟨t.btimeOf, t.mtimeOf, ((lookupStr sizes path).getD 0 : ℚ) / 1024, "Folder",
            hiddenLabel (basenameStr path), tagsOf path, kindOf path⟩
        else none := rfl

theorem get_file_info_fileE (tagsOf kindOf : String → String) (sizes : List (String × Nat))
    (path : String) (f : FileEnt) :
    get_file_info tagsOf kindOf sizes ⟨path, .fileE f⟩
      = if f.statOk = true then
          some ⟨f.btime, f.mtime, (f.size : ℚ) / 1024, fileTypeLabel (basenameStr path),
            hiddenLabel (basenameStr path), tagsOf path, kindOf path⟩
        else none := rfl

/-- C7 as amended: a directory record is labelled `Folder`; a file
record is labelled with the text after the last dot of its basename
whenever some non-dot character precedes that dot (so purely
leading-dot names such as `.env` do not count), and `File` otherwise. -/
theorem claim_C7 (tagsOf kindOf : String → String) (sizes : List (String × Nat))
    (it : Item) (info : InfoTuple)
    (h : get_file_info tagsOf kindOf sizes it = some info) :
    info.file_type
      = if it.isDir then "Folder"
        else if hasStemAndDot (basenameStr it.path) then afterLastDot (basenameStr it.path)
        else "File" := by
  obtain ⟨path, d⟩ := it
  cases d with
  | dirE t =>
      rw [get_file_info_dirE] at h
      by_cases hs : t.statOkOf = true
      · rw [if_pos hs] at h
        injection h with h
        rw [← h]
        rfl
      · rw [if_neg hs] at h
        cases h
  | fileE f =>
      rw [get_file_info_fileE] at h
      by_cases hs : f.statOk = true
      · rw [if_pos hs] at h
        injection h with h
        rw [← h]
        show fileTypeLabel (basenameStr path) = _
        rw [fileTypeLabel_eq]
        rfl
      · rw [if_neg hs] at h
        cases h

/-- C7 witness: the file `photo.JPG` is labelled `JPG`. -/
theorem claim_C7_witness :
    (get_file_info (fun _ => "") (fun _ => "") []
        (⟨"/scan/photo.JPG", .fileE ⟨"photo.JPG", 5, false, true, 0, 0⟩⟩ : Item)).isSome = true ∧
    (∀ info, get_file_info (fun _ => "") (fun _ => "") []
        (⟨"/scan/photo.JPG", .fileE ⟨"photo.JPG", 5, false, true, 0, 0⟩⟩ : Item) = some info →
      info.file_type = "JPG") := by
  refine ⟨rfl, ?_⟩
  intro info h
  have hc := claim_C7 (fun _ => "") (fun _ => "") []
    (⟨"/scan/photo.JPG", .fileE ⟨"photo.JPG", 5, false, true, 0, 0⟩⟩ : Item) info h
  rw [hc]
  rfl

/-! ## Claim C9: timestamps do not interfere with the pipeline -/

theorem stripTime_filesOf (t : FSTree) :
    (stripTime t).filesOf = t.filesOf.map FileEnt.stripT := by cases t; rfl

theorem stripTime_subsOf (t : FSTree) :
    (stripTime t).subsOf = stripTimeSubs t.subsOf := by cases t; rfl

theorem stripTime_listableOf (t : FSTree) :
    (stripTime t).listableOf = t.listableOf := by cases t; rfl

theorem stripTime_statOkOf (t : FSTree) :
    (stripTime t).statOkOf = t.statOkOf := by cases t; rfl

theorem stripTime_btimeOf (t : FSTree) : (stripTime t).btimeOf = 0 := by cases t; rfl

theorem stripTime_mtimeOf (t : FSTree) : (stripTime t).mtimeOf = 0 := by cases t; rfl

theorem itemStripT_path (it : Item) : it.stripT.path = it.path := by
  obtain ⟨p, d⟩ := it
  cases d <;> rfl

theorem itemStripT_isDir (it : Item) : it.stripT.isDir = it.isDir := by
  obtain ⟨p, d⟩ := it
  cases d <;> rfl

theorem dirDirectSize_strip (files : List FileEnt) :
    dirDirectSize (files.map FileEnt.stripT) = dirDirectSize files := by
  unfold dirDirectSize
  rw [List.any_map, List.filter_map, List.map_map]
  have h1 : ((fun f => !f.isLink && !f.statOk) ∘ FileEnt.stripT)
      = (fun f : FileEnt => !f.isLink && !f.statOk) := by funext f; rfl
  have h2 : ((fun f => !f.isLink) ∘ FileEnt.stripT) = (fun f : FileEnt => !f.isLink) := by
    funext f; rfl
  have h3 : (FileEnt.size ∘ FileEnt.stripT) = FileEnt.size := by funext f; rfl
  rw [h1, h2, h3]

mutual
theorem osWalk_strip (path : String) (t : FSTree) :
    osWalk path (stripTime t) = (osWalk path t).map (fun e => (e.1, stripTime e.2)) := by
  cases t with
  | node files subs l s b m =>
      show osWalk path (FSTree.node (files.map FileEnt.stripT) (stripTimeSubs subs) l s 0 0) = _
      unfold osWalk
      by_cases hl : l = true
      · rw [if_pos hl, if_pos hl, List.map_cons, walkSubs_strip path subs]
        rfl
      · rw [if_neg hl, if_neg hl]
        rfl

theorem walkSubs_strip (path : String) (s : FSubs) :
    walkSubs path (stripTimeSubs s) = (walkSubs path s).map (fun e => (e.1, stripTime e.2)) := by
  cases s with
  | nil => rfl
  | cons n t rest =>
      show walkSubs path (FSubs.cons n (stripTime t) (stripTimeSubs rest)) = _
      unfold walkSubs
      rw [osWalk_strip, walkSubs_strip path rest, List.map_append]
end

theorem precompute_strip (root : String) (t : FSTree) :
    precompute_directory_sizes root (stripTime t) = precompute_directory_sizes root t := by
  unfold precompute_directory_sizes
  rw [osWalk_strip, List.map_map]
  have h : ((fun e : String × FSTree => (e.1, dirDirectSize e.2.filesOf))
        ∘ fun e : String × FSTree => (e.1, stripTime e.2))
      = fun e : String × FSTree => (e.1, dirDirectSize e.2.filesOf) := by
    funext e
    show (e.1, dirDirectSize (stripTime e.2).filesOf) = _
    rw [stripTime_filesOf, dirDirectSize_strip]
  rw [h]

theorem dirChildItems_strip (path : String) (s : FSubs) :
    dirChildItems path (stripTimeSubs s) = (dirChildItems path s).map Item.stripT := by
  cases s with
  | nil => rfl
  | cons n t rest =>
      show dirChildItems path (FSubs.cons n (stripTime t) (stripTimeSubs rest)) = _
      unfold dirChildItems
      rw [List.map_cons, dirChildItems_strip path rest]
      rfl

theorem fileChildItems_strip (path : String) (files : List FileEnt) :
    fileChildItems path (files.map FileEnt.stripT) = (fileChildItems path files).map Item.stripT := by
  unfold fileChildItems
  rw [List.map_map, List.map_map]
  congr 1

mutual
theorem collectItems_strip (path : String) (t : FSTree) :
    collectItems path (stripTime t) = (collectItems path t).map Item.stripT := by
  cases t with
  | node files subs l s b m =>
      show collectItems path (FSTree.node (files.map FileEnt.stripT) (stripTimeSubs subs) l s 0 0)
        = _
      unfold collectItems
      by_cases hl : l = true
      · rw [if_pos hl, if_pos hl, dirChildItems_strip, fileChildItems_strip,
          collectSubs_strip path subs, List.map_append, List.map_append]
      · rw [if_neg hl, if_neg hl]
        rfl

theorem collectSubs_strip (path : String) (s : FSubs) :
    collectSubs path (stripTimeSubs s) = (collectSubs path s).map Item.stripT := by
  cases s with
  | nil => rfl
  | cons n t rest =>
      show collectSubs path (FSubs.cons n (stripTime t) (stripTimeSubs rest)) = _
      unfold collectSubs
      rw [collectItems_strip, collectSubs_strip path rest, List.map_append]
end

theorem get_file_info_strip (tagsOf kindOf : String → String) (sizes : List (String × Nat))
    (it : Item) :
    get_file_info tagsOf kindOf sizes it.stripT
      = (get_file_info tagsOf kindOf sizes it).map InfoTuple.stripT := by
  obtain ⟨path, d⟩ := it
  cases d with
  | dirE t =>
      show get_file_info tagsOf kindOf sizes ⟨path, .dirE (stripTime t)⟩ = _
      rw [get_file_info_dirE, get_file_info_dirE, stripTime_statOkOf, stripTime_btimeOf,
        stripTime_mtimeOf]
      by_cases hs : t.statOkOf = true
      · rw [if_pos hs, if_pos hs]
        rfl
      · rw [if_neg hs, if_neg hs]
        rfl
  | fileE f =>
      show get_file_info tagsOf kindOf sizes ⟨path, .fileE f.stripT⟩ = _
      rw [get_file_info_fileE, get_file_info_fileE]
      by_cases hs : f.statOk = true
      · rw [if_pos (show f.stripT.statOk = true from hs), if_pos hs]
        rfl
      · rw [if_neg (show ¬ f.stripT.statOk = true from hs), if_neg hs]
        rfl

theorem stepItem_strip (tagsOf kindOf : String → String) (sizes : List (String × Nat))
    (s : ScanState) (it : Item) :
    stepItem tagsOf kindOf sizes s.stripT it.stripT
      = (stepItem tagsOf kindOf sizes s it).stripT := by
  rcases h : get_file_info tagsOf kindOf sizes it with _ | info
  · unfold stepItem
    rw [get_file_info_strip, h]
    rfl
  · unfold stepItem
    rw [get_file_info_strip, h]
    show (ScanState.mk _ _ _ _ _ _) = _
    unfold ScanState.stripT
    rw [List.map_append]
    simp only [List.map_cons, List.map_nil]
    rw [itemStripT_path, itemStripT_isDir]
    rfl

theorem foldl_strip (tagsOf kindOf : String → String) (sizes : List (String × Nat))
    (items : List Item) (s : ScanState) :
    (items.map Item.stripT).foldl (stepItem tagsOf kindOf sizes) s.stripT
      = (items.foldl (stepItem tagsOf kindOf sizes) s).stripT := by
  induction items generalizing s with
  | nil => rfl
  | cons it rest ih =>
      rw [List.map_cons, List.foldl_cons, List.foldl_cons, stepItem_strip]
      exact ih _

theorem count_strip (root : String) (t : FSTree) :
    count_files_and_max_levels root (stripTime t) = count_files_and_max_levels root t := by
  unfold count_files_and_max_levels
  rw [collectItems_strip, List.foldl_map]
  have h : (fun (acc : Nat × Nat) (it : Item) =>
        (acc.1 + 1, max acc.2 (get_path_levels it.stripT.path).length))
      = fun (acc : Nat × Nat) (it : Item) =>
        (acc.1 + 1, max acc.2 (get_path_levels it.path).length) := by
    funext acc it
    rw [itemStripT_path]
  rw [h]

theorem generate_excel_rows (tagsOf kindOf : String → String) (sd sp : String) (t : FSTree)
    (saveOk : Bool) :
    (generate_excel tagsOf kindOf sd sp t saveOk).2
      = if (count_files_and_max_levels sd t).1 = 0 then []
        else (runCollect tagsOf kindOf (precompute_directory_sizes sd t)
          (collectItems sd t)).rows := by
  unfold generate_excel
  by_cases h : (count_files_and_max_levels sd t).1 = 0 <;> simp [h]

/-- C9: the pipeline is a function of the tree state alone, and its
timestamp inputs do not influence anything else: two trees equal up to
timestamps produce the identical DirectorySizeMap and identical ordered
record sequences up to the records' timestamp fields. -/
theorem claim_C9 (tagsOf kindOf : String → String) (root sp : String) (saveOk : Bool)
    (t₁ t₂ : FSTree) (h : stripTime t₁ = stripTime t₂) :
    precompute_directory_sizes root t₁ = precompute_directory_sizes root t₂ ∧
    (generate_excel tagsOf kindOf root sp t₁ saveOk).2.map ScanRow.stripT
      = (generate_excel tagsOf kindOf root sp t₂ saveOk).2.map ScanRow.stripT := by
  have hpre : precompute_directory_sizes root t₁ = precompute_directory_sizes root t₂ := by
    rw [← precompute_strip root t₁, ← precompute_strip root t₂, h]
  refine ⟨hpre, ?_⟩
  have hcount : count_files_and_max_levels root t₁ = count_files_and_max_levels root t₂ := by
    rw [← count_strip root t₁, ← count_strip root t₂, h]
  rw [generate_excel_rows, generate_excel_rows, hcount]
  by_cases h0 : (count_files_and_max_levels root t₂).1 = 0
  · rw [if_pos h0, if_pos h0]
  · rw [if_neg h0, if_neg h0]
    have key : ∀ t : FSTree,
        (runCollect tagsOf kindOf (precompute_directory_sizes root t)
            (collectItems root t)).rows.map ScanRow.stripT
          = (runCollect tagsOf kindOf (precompute_directory_sizes root t)
              (collectItems root (stripTime t))).rows := by
      intro t
      unfold runCollect
      rw [collectItems_strip]
      rw [show (⟨1, [], 0, 0, 0, 0⟩ : ScanState)
          = (⟨1, [], 0, 0, 0, 0⟩ : ScanState).stripT from rfl]
      rw [foldl_strip]
      rfl
    rw [key t₁, key t₂, h, hpre]

/-- C9 witness: the walkthrough tree against itself with all timestamps
moved. -/
theorem claim_C9_witness :
    stripTime treeScenario = stripTime treeScenarioLate ∧
    precompute_directory_sizes "/scan" treeScenario
      = precompute_directory_sizes "/scan" treeScenarioLate ∧
    (generate_excel (fun _ => "") (fun _ => "") "/scan" "/out.xlsx" treeScenario
        true).2.map ScanRow.stripT
      = (generate_excel (fun _ => "") (fun _ => "") "/scan" "/out.xlsx" treeScenarioLate
          true).2.map ScanRow.stripT :=
  ⟨rfl, claim_C9 (fun _ => "") (fun _ => "") "/scan" "/out.xlsx" true treeScenario
    treeScenarioLate rfl⟩

/-! ## Sorting lemmas -/

theorem insertLenDesc_perm (l : List String) (x : String) :
    (insertLenDesc l x).Perm (x :: l) := by
  induction l with
  | nil => exact List.Perm.refl _
  | cons y ys ih =>
      unfold insertLenDesc
      by_cases h : x.length ≤ y.length
      · rw [if_pos h]
        exact (ih.cons y).trans (List.Perm.swap x y ys)
      · rw [if_neg h]

theorem sortLenDesc_perm_aux (l acc : List String) :
    (l.foldl insertLenDesc acc).Perm (acc ++ l) := by
  induction l generalizing acc with
  | nil => simp
  | cons x xs ih =>
      rw [List.foldl_cons]
      have h1 := ih (insertLenDesc acc x)
      have h2 : (insertLenDesc acc x ++ xs).Perm ((x :: acc) ++ xs) :=
        List.Perm.append_right xs (insertLenDesc_perm acc x)
      have h3 : ((x :: acc) ++ xs).Perm (acc ++ x :: xs) := List.perm_middle.symm
      exact h1.trans (h2.trans h3)

theorem sortLenDesc_perm (l : List String) : (sortLenDesc l).Perm l := by
  simpa using sortLenDesc_perm_aux l []

theorem insertLenDesc_pairwise (l : List String) (x : String)
    (h : l.Pairwise (fun a b => b.length ≤ a.length)) :
    (insertLenDesc l x).Pairwise (fun a b => b.length ≤ a.length) := by
  induction l with
  | nil => simp [insertLenDesc]
  | cons y ys ih =>
      rw [List.pairwise_cons] at h
      unfold insertLenDesc
      by_cases hx : x.length ≤ y.length
      · rw [if_pos hx]
        rw [List.pairwise_cons]
        constructor
        · intro a ha
          rcases List.mem_cons.mp ((insertLenDesc_perm ys x).mem_iff.mp ha) with h1 | h1
          · rw [h1]; exact hx
          · exact h.1 a h1
        · exact ih h.2
      · rw [if_neg hx]
        rw [List.pairwise_cons]
        constructor
        · intro a ha
          rcases List.mem_cons.mp ha with h1 | h1
          · rw [h1]; omega
          · have := h.1 a h1
            omega
        · exact List.pairwise_cons.mpr h

theorem sortLenDesc_pairwise_aux (l acc : List String)
    (h : acc.Pairwise (fun a b => b.length ≤ a.length)) :
    (l.foldl insertLenDesc acc).Pairwise (fun a b => b.length ≤ a.length) := by
  induction l generalizing acc with
  | nil => exact h
  | cons x xs ih =>
      rw [List.foldl_cons]
      exact ih _ (insertLenDesc_pairwise acc x h)

theorem sortLenDesc_pairwise (l : List String) :
    (sortLenDesc l).Pairwise (fun a b => b.length ≤ a.length) :=
  sortLenDesc_pairwise_aux l [] (by simp)

/-! ## Dictionary lemmas -/

theorem lookupStr_cons (e : String × Nat) (rest : List (String × Nat)) (k : String) :
    lookupStr (e :: rest) k = if e.1 = k then some e.2 else lookupStr rest k := rfl

theorem updAdd_cons (e : String × Nat) (rest : List (String × Nat)) (k : String) (v : Nat) :
    updAdd (e :: rest) k v = (if e.1 = k then (e.1, e.2 + v) else e) :: updAdd rest k v := rfl

theorem lookupStr_updAdd (m : List (String × Nat)) (k k' : String) (v : Nat) :
    lookupStr (updAdd m k v) k'
      = if k' = k then (lookupStr m k').map (· + v) else lookupStr m k' := by
  induction m with
  | nil => by_cases h : k' = k <;> simp [updAdd, lookupStr, h]
  | cons e rest ih =>
      rw [updAdd_cons]
      by_cases he : e.1 = k
      · by_cases he' : e.1 = k'
        · have hk : k' = k := he'.symm.trans he
          simp [he, he', lookupStr_cons, hk]
        · have hk : ¬ k' = k := fun hc => he' (he.trans hc.symm)
          have hk2 : ¬ k = k' := fun hc => he' (he.trans hc)
          simp [he, he', lookupStr_cons, hk, hk2, ih]
      · by_cases he' : e.1 = k'
        · have hk : ¬ k' = k := fun hc => he (he'.trans hc)
          simp [he, he', lookupStr_cons, hk]
        · simp [he, he', lookupStr_cons, ih]

theorem lookupStr_isSome_iff (m : List (String × Nat)) (p : String) :
    (lookupStr m p).isSome = true ↔ p ∈ m.map Prod.fst := by
  induction m with
  | nil => simp [lookupStr]
  | cons e rest ih =>
      rw [lookupStr_cons]
      by_cases he : e.1 = p
      · simp [he]
      · simp only [if_neg he, List.map_cons, List.mem_cons]
        rw [ih]
        constructor
        · exact Or.inr
        · rintro (h | h)
          · exact absurd h.symm he
          · exact h

theorem lookupStr_eq_none (m : List (String × Nat)) (p : String) (h : p ∉ m.map Prod.fst) :
    lookupStr m p = none := by
  cases hl : lookupStr m p with
  | none => rfl
  | some v =>
      exfalso
      apply h
      rw [← lookupStr_isSome_iff]
      rw [hl]
      rfl

/-! ## Chain (`resides`) lemmas -/

theorem string_eq_empty_of_length {q : String} (h : q.length = 0) : q = "" := by
  apply String.ext
  have : q.data.length = 0 := h
  exact List.length_eq_zero.mp this

theorem dirname_empty : dirname "" = "" := rfl

theorem residesF_eq_of_le (K P : List String) :
    ∀ (n : Nat), ∀ (f : Nat) (q p : String), q.length ≤ n → q.length ≤ f →
      residesF n K P q p = residesF f K P q p := by
  intro n
  induction n using Nat.strong_induction_on with
  | _ n ih =>
      intro f q p hn hf
      match n, f with
      | 0, 0 => rfl
      | 0, f + 1 =>
          have hq : q = "" := string_eq_empty_of_length (Nat.le_zero.mp hn)
          subst hq
          show decide ("" = p) = _
          unfold residesF
          by_cases hp : ("" : String) = p
          · simp [hp]
          · rw [if_neg hp]
            rw [if_neg (by
              intro hcontra
              exact hcontra.1 dirname_empty)]
            simp [hp]
      | n + 1, 0 =>
          have hq : q = "" := string_eq_empty_of_length (Nat.le_zero.mp hf)
          subst hq
          show _ = decide ("" = p)
          unfold residesF
          by_cases hp : ("" : String) = p
          · simp [hp]
          · rw [if_neg hp]
            rw [if_neg (by
              intro hcontra
              exact hcontra.1 dirname_empty)]
            simp [hp]
      | n + 1, f + 1 =>
          show residesF (n + 1) K P q p = residesF (f + 1) K P q p
          unfold residesF
          by_cases hp : q = p
          · rw [if_pos hp, if_pos hp]
          · rw [if_neg hp, if_neg hp]
            by_cases hg : dirname q ≠ q ∧ dirname q ∈ K ∧ q ∈ P
            · rw [if_pos hg, if_pos hg]
              have hlt : (dirname q).length < q.length := dirname_length_lt hg.1
              have h1 : (dirname q).length ≤ n := by omega
              have h2 : (dirname q).length ≤ f := by omega
              exact ih n (Nat.lt_succ_self n) f (dirname q) p h1 h2
            · rw [if_neg hg, if_neg hg]

theorem resides_unfold (K P : List String) (q p : String) :
    resides K P q p
      = if q = p then true
        else if dirname q ≠ q ∧ dirname q ∈ K ∧ q ∈ P then resides K P (dirname q) p
        else false := by
  show residesF q.length K P q p = _
  cases hn : q.length with
  | zero =>
      have hq : q = "" := string_eq_empty_of_length hn
      subst hq
      show decide ("" = p) = _
      by_cases hp : ("" : String) = p
      · simp [hp]
      · rw [if_neg hp]
        rw [if_neg (by
          intro hcontra
          exact hcontra.1 dirname_empty)]
        simp [hp]
  | succ n =>
      show (if q = p then true
        else if dirname q ≠ q ∧ dirname q ∈ K ∧ q ∈ P then residesF n K P (dirname q) p
        else false) = _
      by_cases hp : q = p
      · rw [if_pos hp, if_pos hp]
      · rw [if_neg hp, if_neg hp]
        by_cases hg : dirname q ≠ q ∧ dirname q ∈ K ∧ q ∈ P
        · rw [if_pos hg, if_pos hg]
          have hlt : (dirname q).length < q.length := dirname_length_lt hg.1
          have hle : (dirname q).length ≤ n := by omega
          exact residesF_eq_of_le K P n (dirname q).length (dirname q) p hle (le_refl _)
        · rw [if_neg hg, if_neg hg]

theorem resides_self (K P : List String) (p : String) : resides K P p p = true := by
  rw [resides_unfold]
  simp

theorem resides_length_aux (K P : List String) :
    ∀ (n : Nat) (q p : String), q.length = n → resides K P q p = true →
      p.length ≤ q.length := by
  intro n
  induction n using Nat.strong_induction_on with
  | _ n ih =>
      intro q p hn h
      rw [resides_unfold] at h
      by_cases hp : q = p
      · subst hp; omega
      · rw [if_neg hp] at h
        by_cases hg : dirname q ≠ q ∧ dirname q ∈ K ∧ q ∈ P
        · rw [if_pos hg] at h
          have hlt : (dirname q).length < q.length := dirname_length_lt hg.1
          have := ih (dirname q).length (by omega) (dirname q) p rfl h
          omega
        · rw [if_neg hg] at h
          simp at h

theorem resides_length {K P : List String} {q p : String} (h : resides K P q p = true) :
    p.length ≤ q.length :=
  resides_length_aux K P q.length q p rfl h

theorem resides_trans_aux (K P : List String) :
    ∀ (n : Nat) (q c p : String), q.length = n → resides K P q c = true →
      resides K P c p = true → resides K P q p = true := by
  intro n
  induction n using Nat.strong_induction_on with
  | _ n ih =>
      intro q c p hn h1 h2
      by_cases hp : q = p
      · rw [hp]; exact resides_self K P p
      · rw [resides_unfold] at h1
        by_cases hc : q = c
        · rw [hc]; exact h2
        · rw [if_neg hc] at h1
          by_cases hg : dirname q ≠ q ∧ dirname q ∈ K ∧ q ∈ P
          · rw [if_pos hg] at h1
            have hlt : (dirname q).length < q.length := dirname_length_lt hg.1
            have hrec := ih (dirname q).length (by omega) (dirname q) c p rfl h1 h2
            rw [resides_unfold]
            rw [if_neg hp, if_pos hg]
            exact hrec
          · rw [if_neg hg] at h1
            simp at h1

theorem resides_trans {K P : List String} {q c p : String} (h1 : resides K P q c = true)
    (h2 : resides K P c p = true) : resides K P q p = true :=
  resides_trans_aux K P q.length q c p rfl h1 h2

theorem resides_nil (K : List String) (q p : String) :
    resides K [] q p = decide (q = p) := by
  rw [resides_unfold]
  by_cases hp : q = p
  · simp [hp]
  · rw [if_neg hp]
    rw [if_neg (by
      intro hc
      simp at hc)]
    simp [hp]

/-! ## How one aggregation step changes the chain predicate -/

theorem resides_append_of_no_step (K P : List String) (p₀ : String)
    (hguard : ¬(dirname p₀ ≠ p₀ ∧ dirname p₀ ∈ K)) :
    ∀ (n : Nat) (q p : String), q.length = n →
      resides K (P ++ [p₀]) q p = resides K P q p := by
  intro n
  induction n using Nat.strong_induction_on with
  | _ n ih =>
      intro q p hn
      rw [resides_unfold, resides_unfold K P]
      by_cases hp : q = p
      · rw [if_pos hp, if_pos hp]
      · rw [if_neg hp, if_neg hp]
        by_cases hq0 : q = p₀
        · subst hq0
          rw [if_neg (fun hc => hguard ⟨hc.1, hc.2.1⟩),
            if_neg (fun hc => hguard ⟨hc.1, hc.2.1⟩)]
        · by_cases hg : dirname q ≠ q ∧ dirname q ∈ K ∧ q ∈ P
          · have hg2 : dirname q ≠ q ∧ dirname q ∈ K ∧ q ∈ P ++ [p₀] :=
              ⟨hg.1, hg.2.1, List.mem_append.mpr (Or.inl hg.2.2)⟩
            rw [if_pos hg2, if_pos hg]
            have hlt : (dirname q).length < q.length := dirname_length_lt hg.1
            exact ih (dirname q).length (by omega) _ p rfl
          · have hg2 : ¬(dirname q ≠ q ∧ dirname q ∈ K ∧ q ∈ P ++ [p₀]) := by
              intro hc
              apply hg
              refine ⟨hc.1, hc.2.1, ?_⟩
              rcases List.mem_append.mp hc.2.2 with h | h
              · exact h
              · exact absurd (List.mem_singleton.mp h) hq0
            rw [if_neg hg2, if_neg hg]

theorem resides_parent_not_in (K P : List String) (p₀ : String)
    (hlen : ∀ r ∈ P, p₀.length ≤ r.length) (hd : dirname p₀ ≠ p₀) :
    dirname p₀ ∉ P ++ [p₀] := by
  intro hc
  rcases List.mem_append.mp hc with h | h
  · have h1 := hlen _ h
    have h2 := dirname_length_lt hd
    omega
  · exact hd (List.mem_singleton.mp h)

theorem resides_append_other (K P : List String) (p₀ : String)
    (hp₀ : p₀ ∉ P) (hlen : ∀ r ∈ P, p₀.length ≤ r.length)
    (hg0 : dirname p₀ ≠ p₀ ∧ dirname p₀ ∈ K) :
    ∀ (n : Nat) (q p : String), q.length = n → p ≠ dirname p₀ →
      resides K (P ++ [p₀]) q p = resides K P q p := by
  intro n
  induction n using Nat.strong_induction_on with
  | _ n ih =>
      intro q p hn hpne
      rw [resides_unfold, resides_unfold K P]
      by_cases hp : q = p
      · rw [if_pos hp, if_pos hp]
      · rw [if_neg hp, if_neg hp]
        by_cases hq0 : q = p₀
        · subst hq0
          have hg2 : dirname q ≠ q ∧ dirname q ∈ K ∧ q ∈ P ++ [q] :=
            ⟨hg0.1, hg0.2, List.mem_append.mpr (Or.inr (by simp))⟩
          rw [if_pos hg2]
          rw [if_neg (fun hc : dirname q ≠ q ∧ dirname q ∈ K ∧ q ∈ P => hp₀ hc.2.2)]
          rw [resides_unfold]
          rw [if_neg (fun hc => hpne hc.symm)]
          rw [if_neg (by
            intro hc
            exact resides_parent_not_in K P q hlen hg0.1 hc.2.2)]
        · by_cases hg : dirname q ≠ q ∧ dirname q ∈ K ∧ q ∈ P
          · have hg2 : dirname q ≠ q ∧ dirname q ∈ K ∧ q ∈ P ++ [p₀] :=
              ⟨hg.1, hg.2.1, List.mem_append.mpr (Or.inl hg.2.2)⟩
            rw [if_pos hg2, if_pos hg]
            have hlt : (dirname q).length < q.length := dirname_length_lt hg.1
            exact ih (dirname q).length (by omega) _ p rfl hpne
          · have hg2 : ¬(dirname q ≠ q ∧ dirname q ∈ K ∧ q ∈ P ++ [p₀]) := by
              intro hc
              apply hg
              refine ⟨hc.1, hc.2.1, ?_⟩
              rcases List.mem_append.mp hc.2.2 with h | h
              · exact h
              · exact absurd (List.mem_singleton.mp h) hq0
            rw [if_neg hg2, if_neg hg]

theorem resides_not_both (K P : List String) (p₀ : String)
    (hp₀ : p₀ ∉ P) (hd : dirname p₀ ≠ p₀) :
    ∀ (n : Nat) (q : String), q.length = n →
      ¬(resides K P q (dirname p₀) = true ∧ resides K P q p₀ = true) := by
  intro n
  induction n using Nat.strong_induction_on with
  | _ n ih =>
      intro q hn ⟨h1, h2⟩
      by_cases hq1 : q = dirname p₀
      · subst hq1
        have := resides_length h2
        have := dirname_length_lt hd
        omega
      · by_cases hq0 : q = p₀
        · subst hq0
          rw [resides_unfold] at h1
          rw [if_neg (fun hc : q = dirname q => hd hc.symm)] at h1
          rw [if_neg (fun hc : dirname q ≠ q ∧ dirname q ∈ K ∧ q ∈ P => hp₀ hc.2.2)] at h1
          exact Bool.false_ne_true h1
        · rw [resides_unfold] at h1 h2
          rw [if_neg hq1] at h1
          rw [if_neg hq0] at h2
          by_cases hg : dirname q ≠ q ∧ dirname q ∈ K ∧ q ∈ P
          · rw [if_pos hg] at h1 h2
            have hlt : (dirname q).length < q.length := dirname_length_lt hg.1
            exact ih (dirname q).length (by omega) _ rfl ⟨h1, h2⟩
          · rw [if_neg hg] at h1
            exact Bool.false_ne_true h1

theorem resides_append_parent (K P : List String) (p₀ : String)
    (hp₀ : p₀ ∉ P) (hlen : ∀ r ∈ P, p₀.length ≤ r.length)
    (hg0 : dirname p₀ ≠ p₀ ∧ dirname p₀ ∈ K) :
    ∀ (n : Nat) (q : String), q.length = n →
      resides K (P ++ [p₀]) q (dirname p₀)
        = (resides K P q (dirname p₀) || resides K P q p₀) := by
  intro n
  induction n using Nat.strong_induction_on with
  | _ n ih =>
      intro q hn
      by_cases hq1 : q = dirname p₀
      · subst hq1
        rw [resides_self, resides_self]
        rfl
      · by_cases hq0 : q = p₀
        · subst hq0
          rw [resides_unfold]
          rw [if_neg (fun hc : q = dirname q => hg0.1 hc.symm)]
          rw [if_pos ⟨hg0.1, hg0.2, List.mem_append.mpr (Or.inr (by simp))⟩]
          rw [resides_self]
          rw [show resides K P q q = true from resides_self K P q]
          simp
        · rw [resides_unfold, resides_unfold K P q (dirname p₀), resides_unfold K P q p₀]
          rw [if_neg hq1, if_neg hq1, if_neg hq0]
          by_cases hg : dirname q ≠ q ∧ dirname q ∈ K ∧ q ∈ P
          · have hg2 : dirname q ≠ q ∧ dirname q ∈ K ∧ q ∈ P ++ [p₀] :=
              ⟨hg.1, hg.2.1, List.mem_append.mpr (Or.inl hg.2.2)⟩
            rw [if_pos hg2, if_pos hg, if_pos hg]
            have hlt : (dirname q).length < q.length := dirname_length_lt hg.1
            exact ih (dirname q).length (by omega) _ rfl
          · have hg2 : ¬(dirname q ≠ q ∧ dirname q ∈ K ∧ q ∈ P ++ [p₀]) := by
              intro hc
              apply hg
              refine ⟨hc.1, hc.2.1, ?_⟩
              rcases List.mem_append.mp hc.2.2 with h | h
              · exact h
              · exact absurd (List.mem_singleton.mp h) hq0
            rw [if_neg hg2, if_neg hg, if_neg hg]
            rfl

/-! ## Sums over filters -/

theorem sum_map_filter_or {α : Type} (l : List α) (f g : α → Bool) (m : α → Nat)
    (hdisj : ∀ x ∈ l, ¬(f x = true ∧ g x = true)) :
    ((l.filter (fun x => f x || g x)).map m).sum
      = ((l.filter f).map m).sum + ((l.filter g).map m).sum := by
  induction l with
  | nil => simp
  | cons x xs ih =>
      have hd := hdisj x (by simp)
      have hrest : ∀ y ∈ xs, ¬(f y = true ∧ g y = true) := fun y hy => hdisj y (by simp [hy])
      have ihr := ih hrest
      by_cases hf : f x = true
      · have hgx : g x = false := by
          cases hgx : g x
          · rfl
          · exact absurd ⟨hf, hgx⟩ hd
        simp [List.filter_cons, hf, hgx, ihr]
        omega
      · have hf' : f x = false := Bool.not_eq_true _ ▸ hf
        by_cases hgx : g x = true
        · simp [List.filter_cons, hf', hgx, ihr]
          omega
        · have hg' : g x = false := Bool.not_eq_true _ ▸ hgx
          simp [List.filter_cons, hf', hg', ihr]

theorem resSum_congr (init : List (String × Nat)) (K P₁ P₂ : List String) (p : String)
    (h : ∀ q, resides K P₁ q p = resides K P₂ q p) :
    resSum init K P₁ p = resSum init K P₂ p := by
  unfold resSum
  rw [List.filter_congr (fun e _ => h e.1)]

theorem resSum_parent_step (init : List (String × Nat)) (K P : List String) (p₀ : String)
    (hp₀ : p₀ ∉ P) (hlen : ∀ r ∈ P, p₀.length ≤ r.length)
    (hg0 : dirname p₀ ≠ p₀ ∧ dirname p₀ ∈ K) :
    resSum init K (P ++ [p₀]) (dirname p₀)
      = resSum init K P (dirname p₀) + resSum init K P p₀ := by
  unfold resSum
  rw [List.filter_congr (fun e _ =>
    resides_append_parent K P p₀ hp₀ hlen hg0 e.1.length e.1 rfl)]
  exact sum_map_filter_or init _ _ _
    (fun e _ => resides_not_both K P p₀ hp₀ hg0.1 e.1.length e.1 rfl)

/-! ## The aggregation fold computes chain sums -/

theorem aggStep_eq (m : List (String × Nat)) (p₀ : String) :
    aggStep m p₀
      = if dirname p₀ ≠ p₀ ∧ (lookupStr m (dirname p₀)).isSome then
          updAdd m (dirname p₀) ((lookupStr m p₀).getD 0)
        else m := rfl

theorem fold_inv (init : List (String × Nat)) (hnd : (init.map Prod.fst).Nodup) :
    ∀ (S' P : List String) (m : List (String × Nat)),
      (P ++ S').Perm (init.map Prod.fst) →
      (∀ r ∈ P, ∀ s ∈ S', s.length ≤ r.length) →
      S'.Pairwise (fun a b => b.length ≤ a.length) →
      (∀ p, lookupStr m p
        = if p ∈ init.map Prod.fst then some (resSum init (init.map Prod.fst) P p) else none) →
      ∀ p, lookupStr (S'.foldl aggStep m) p
        = if p ∈ init.map Prod.fst
          then some (resSum init (init.map Prod.fst) (P ++ S') p) else none := by
  intro S'
  induction S' with
  | nil =>
      intro P m hperm _ _ hm p
      simpa using hm p
  | cons p₀ rest ih =>
      intro P m hperm hlen hsorted hm p
      rw [List.foldl_cons]
      have hndPS : (P ++ p₀ :: rest).Nodup := hperm.nodup_iff.mpr hnd
      have hp₀P : p₀ ∉ P := by
        intro hc
        rcases List.nodup_append.mp hndPS with ⟨_, _, hdisj⟩
        exact hdisj hc (by simp)
      have hp₀K : p₀ ∈ init.map Prod.fst := hperm.mem_iff.mp (by simp)
      have hlen₀ : ∀ r ∈ P, p₀.length ≤ r.length := fun r hr => hlen r hr p₀ (by simp)
      have hperm' : ((P ++ [p₀]) ++ rest).Perm (init.map Prod.fst) := by
        rw [List.append_assoc]
        simpa using hperm
      have hlen' : ∀ r ∈ P ++ [p₀], ∀ s ∈ rest, s.length ≤ r.length := by
        intro r hr s hs
        rcases List.mem_append.mp hr with h | h
        · exact hlen r h s (by simp [hs])
        · rw [List.mem_singleton.mp h]
          exact (List.pairwise_cons.mp hsorted).1 s hs
      have hsorted' : rest.Pairwise (fun a b => b.length ≤ a.length) :=
        (List.pairwise_cons.mp hsorted).2
      have hmem_isSome : ∀ x, (lookupStr m x).isSome = (decide (x ∈ init.map Prod.fst)) := by
        intro x
        rw [hm x]
        by_cases hx : x ∈ init.map Prod.fst <;> simp [hx]
      by_cases hg0 : dirname p₀ ≠ p₀ ∧ dirname p₀ ∈ init.map Prod.fst
      · -- the step pushes p₀'s accumulated value into its parent
        have hcond : dirname p₀ ≠ p₀ ∧ (lookupStr m (dirname p₀)).isSome = true := by
          refine ⟨hg0.1, ?_⟩
          rw [hmem_isSome]
          simp [hg0.2]
        have hstep : aggStep m p₀ = updAdd m (dirname p₀) ((lookupStr m p₀).getD 0) := by
          rw [aggStep_eq]
          rw [if_pos hcond]
        have hval : (lookupStr m p₀).getD 0 = resSum init (init.map Prod.fst) P p₀ := by
          rw [hm p₀, if_pos hp₀K]
          rfl
        rw [hstep, hval]
        rw [show P ++ p₀ :: rest = (P ++ [p₀]) ++ rest by simp]
        apply ih (P ++ [p₀]) _ hperm' hlen' hsorted'
        intro x
        rw [lookupStr_updAdd]
        by_cases hx : x = dirname p₀
        · rw [if_pos hx, hm x, hx]
          rw [if_pos hg0.2, if_pos hg0.2]
          rw [Option.map_some']
          rw [resSum_parent_step init (init.map Prod.fst) P p₀ hp₀P hlen₀ hg0]
        · rw [if_neg hx, hm x]
          by_cases hxK : x ∈ init.map Prod.fst
          · rw [if_pos hxK, if_pos hxK]
            rw [resSum_congr init (init.map Prod.fst) (P ++ [p₀]) P x
              (fun q => resides_append_other (init.map Prod.fst) P p₀ hp₀P hlen₀ hg0
                q.length q x rfl hx)]
          · rw [if_neg hxK, if_neg hxK]
      · -- the step does nothing
        have hcond : ¬(dirname p₀ ≠ p₀ ∧ (lookupStr m (dirname p₀)).isSome = true) := by
          intro hc
          apply hg0
          refine ⟨hc.1, ?_⟩
          have := hc.2
          rw [hmem_isSome] at this
          simpa using this
        have hstep : aggStep m p₀ = m := by
          rw [aggStep_eq]
          rw [if_neg hcond]
        rw [hstep]
        rw [show P ++ p₀ :: rest = (P ++ [p₀]) ++ rest by simp]
        apply ih (P ++ [p₀]) _ hperm' hlen' hsorted'
        intro x
        rw [hm x]
        by_cases hxK : x ∈ init.map Prod.fst
        · rw [if_pos hxK, if_pos hxK]
          rw [resSum_congr init (init.map Prod.fst) (P ++ [p₀]) P x
            (fun q => resides_append_of_no_step (init.map Prod.fst) P p₀ hg0 q.length q x rfl)]
        · rw [if_neg hxK, if_neg hxK]

theorem lookupStr_init : ∀ (init : List (String × Nat)) (K : List String),
    (init.map Prod.fst).Nodup →
    ∀ p, lookupStr init p
      = if p ∈ init.map Prod.fst then some (resSum init K [] p) else none := by
  intro init
  induction init with
  | nil => intro K _ p; simp [lookupStr, resSum]
  | cons e rest ih =>
      intro K hnd p
      rw [List.map_cons, List.nodup_cons] at hnd
      rw [lookupStr_cons]
      by_cases he : e.1 = p
      · rw [if_pos he]
        rw [if_pos (by simp [he])]
        unfold resSum
        rw [List.filter_cons]
        rw [if_pos (by
          rw [resides_nil]
          simp [he])]
        have hrest : rest.filter (fun x => resides K [] x.1 p) = [] := by
          rw [List.filter_eq_nil_iff]
          intro a ha
          rw [resides_nil]
          simp
          intro hc
          apply hnd.1
          rw [he, ← hc]
          exact List.mem_map.mpr ⟨a, ha, rfl⟩
        rw [hrest]
        simp
      · rw [if_neg he]
        rw [ih K hnd.2 p]
        by_cases hp : p ∈ rest.map Prod.fst
        · rw [if_pos hp, if_pos (by simp [hp])]
          unfold resSum
          rw [List.filter_cons]
          rw [if_neg (by
            rw [resides_nil]
            simp [he])]
        · rw [if_neg hp, if_neg (by
            simp only [List.map_cons, List.mem_cons]
            rintro (hx | hx)
            · exact he hx.symm
            · exact hp hx)]

theorem resides_P_congr (K : List String) (P₁ P₂ : List String)
    (hP : ∀ x, x ∈ P₁ ↔ x ∈ P₂) :
    ∀ (n : Nat) (q p : String), q.length = n → resides K P₁ q p = resides K P₂ q p := by
  intro n
  induction n using Nat.strong_induction_on with
  | _ n ih =>
      intro q p hn
      rw [resides_unfold, resides_unfold K P₂]
      by_cases hp : q = p
      · rw [if_pos hp, if_pos hp]
      · rw [if_neg hp, if_neg hp]
        by_cases hg : dirname q ≠ q ∧ dirname q ∈ K ∧ q ∈ P₁
        · have hg2 : dirname q ≠ q ∧ dirname q ∈ K ∧ q ∈ P₂ :=
            ⟨hg.1, hg.2.1, (hP q).mp hg.2.2⟩
          rw [if_pos hg, if_pos hg2]
          have hlt : (dirname q).length < q.length := dirname_length_lt hg.1
          exact ih (dirname q).length (by omega) _ p rfl
        · have hg2 : ¬(dirname q ≠ q ∧ dirname q ∈ K ∧ q ∈ P₂) := by
            intro hc
            exact hg ⟨hc.1, hc.2.1, (hP q).mpr hc.2.2⟩
          rw [if_neg hg, if_neg hg2]

theorem fold_closed (init : List (String × Nat)) (hnd : (init.map Prod.fst).Nodup) :
    ∀ p ∈ init.map Prod.fst,
      lookupStr ((sortLenDesc (init.map Prod.fst)).foldl aggStep init) p
        = some (resSum init (init.map Prod.fst) (init.map Prod.fst) p) := by
  intro p hp
  have h := fold_inv init hnd (sortLenDesc (init.map Prod.fst)) [] init
    (by simpa using sortLenDesc_perm _)
    (by intro r hr; simp at hr)
    (sortLenDesc_pairwise _)
    (lookupStr_init init (init.map Prod.fst) hnd)
    p
  rw [h]
  rw [if_pos hp]
  rw [resSum_congr init (init.map Prod.fst) ([] ++ sortLenDesc (init.map Prod.fst))
    (init.map Prod.fst) p
    (fun q => resides_P_congr (init.map Prod.fst) _ _
      (fun x => by
        constructor
        · intro hx
          exact (sortLenDesc_perm _).mem_iff.mp (by simpa using hx)
        · intro hx
          simpa using (sortLenDesc_perm (init.map Prod.fst)).mem_iff.mpr hx)
      q.length q p rfl)]

/-! ## More walk structure -/

theorem wfSubs_mem {n : String} {c : FSTree} (s : FSubs) (hw : wfSubs s = true)
    (h : (n, c) ∈ subsList s) : wfName n = true ∧ wfTree c = true := by
  cases s with
  | nil => simp [subsList] at h
  | cons n' t' rest =>
      obtain ⟨h1, h2, h3⟩ := wfSubs_elim hw
      have h' : (n, c) ∈ (n', t') :: subsList rest := h
      rcases List.mem_cons.mp h' with he | he
      · have e1 : n = n' := congrArg Prod.fst he
        have e2 : c = t' := congrArg Prod.snd he
        rw [e1, e2]
        exact ⟨h1, h2⟩
      · exact wfSubs_mem rest h3 he

theorem subsNames_eq_map (s : FSubs) : subsNames s = (subsList s).map Prod.fst := by
  cases s with
  | nil => rfl
  | cons n t rest => simp [subsNames, subsList, subsNames_eq_map rest]

theorem nodupNames_nodup (l : List String) (h : nodupNames l = true) : l.Nodup := by
  induction l with
  | nil => simp
  | cons x rest ih =>
      obtain ⟨h1, h2⟩ := nodupNames_elim h
      exact List.nodup_cons.mpr ⟨h1, ih h2⟩

theorem subs_val_unique {n : String} {c c' : FSTree} (s : FSubs)
    (hnd : nodupNames (subsNames s) = true)
    (h : (n, c) ∈ subsList s) (h' : (n, c') ∈ subsList s) : c = c' := by
  apply keyval_unique (l := subsList s) (a := n)
  · rw [← subsNames_eq_map]
    exact nodupNames_nodup _ hnd
  · exact h
  · exact h'

theorem mem_walkSubs_of_component {n : String} {t : FSTree} (path : String) (s : FSubs)
    (hmem : (n, t) ∈ subsList s) :
    ∀ x ∈ osWalk (joinPath path n) t, x ∈ walkSubs path s := by
  cases s with
  | nil => simp [subsList] at hmem
  | cons n' t' rest =>
      intro x hx
      have h' : (n, t) ∈ (n', t') :: subsList rest := hmem
      show x ∈ osWalk (joinPath path n') t' ++ walkSubs path rest
      rcases List.mem_cons.mp h' with he | he
      · have e1 : n = n' := congrArg Prod.fst he
        have e2 : t = t' := congrArg Prod.snd he
        subst e1
        subst e2
        exact List.mem_append.mpr (Or.inl hx)
      · exact List.mem_append.mpr
          (Or.inr (mem_walkSubs_of_component path rest he x hx))

theorem walkSubs_child_mem {n : String} {c : FSTree} (path : String) (s : FSubs)
    (hmem : (n, c) ∈ subsList s) (hl : c.listableOf = true) :
    (joinPath path n, c) ∈ walkSubs path s := by
  apply mem_walkSubs_of_component path s hmem
  cases c with
  | node files subs l st b m =>
      unfold osWalk
      rw [if_pos (by simpa [FSTree.listableOf] using hl)]
      simp

theorem walk_head_mem (path : String) (t : FSTree) (hl : t.listableOf = true) :
    (path, t) ∈ osWalk path t := by
  cases t with
  | node files subs l st b m =>
      unfold osWalk
      rw [if_pos (by simpa [FSTree.listableOf] using hl)]
      simp

mutual
theorem walk_emit (path : String) (t : FSTree) :
    ∀ r w, (r, w) ∈ osWalk path t → ∀ n c, (n, c) ∈ subsList w.subsOf →
      c.listableOf = true → (joinPath r n, c) ∈ osWalk path t := by
  cases t with
  | node files subs l st b m =>
      intro r w hrw n c hnc hl
      unfold osWalk at hrw ⊢
      by_cases hlt : l = true
      · rw [if_pos hlt] at hrw ⊢
        rcases List.mem_cons.mp hrw with he | he
        · have hr : r = path := congrArg Prod.fst he
          have hw : w = FSTree.node files subs l st b m := congrArg Prod.snd he
          subst hr
          rw [hw] at hnc
          apply List.mem_cons.mpr
          right
          exact walkSubs_child_mem _ subs hnc hl
        · apply List.mem_cons.mpr
          right
          exact walkSubs_emit path subs r w he n c hnc hl
      · rw [if_neg hlt] at hrw
        simp at hrw

theorem walkSubs_emit (path : String) (s : FSubs) :
    ∀ r w, (r, w) ∈ walkSubs path s → ∀ n c, (n, c) ∈ subsList w.subsOf →
      c.listableOf = true → (joinPath r n, c) ∈ walkSubs path s := by
  cases s with
  | nil => intro r w hrw; simp [walkSubs] at hrw
  | cons n' t' rest =>
      intro r w hrw n c hnc hl
      unfold walkSubs at hrw ⊢
      rcases List.mem_append.mp hrw with he | he
      · exact List.mem_append.mpr (Or.inl (walk_emit (joinPath path n') t' r w he n c hnc hl))
      · exact List.mem_append.mpr (Or.inr (walkSubs_emit path rest r w he n c hnc hl))
end

mutual
theorem walk_inversion (path : String) (t : FSTree) :
    ∀ q u, (q, u) ∈ osWalk path t →
      (q = path ∧ u = t) ∨
      ∃ r w n, (r, w) ∈ osWalk path t ∧ (n, u) ∈ subsList w.subsOf ∧ q = joinPath r n := by
  cases t with
  | node files subs l st b m =>
      intro q u hqu
      unfold osWalk at hqu
      by_cases hlt : l = true
      · rw [if_pos hlt] at hqu
        rcases List.mem_cons.mp hqu with he | he
        · exact Or.inl ⟨congrArg Prod.fst he, congrArg Prod.snd he⟩
        · rcases walkSubs_inversion path subs q u he with
            ⟨n', t', hmem, hcase⟩
          rcases hcase with ⟨hq, hu⟩ | ⟨r, w, n, hrw, hnu, hq⟩
          · right
            refine ⟨path, FSTree.node files subs l st b m, n', ?_, ?_, hq⟩
            · unfold osWalk
              rw [if_pos hlt]
              simp
            · show (n', u) ∈ subsList subs
              rw [← hu] at hmem
              exact hmem
          · right
            refine ⟨r, w, n, ?_, hnu, hq⟩
            unfold osWalk
            rw [if_pos hlt]
            exact List.mem_cons.mpr (Or.inr hrw)
      · rw [if_neg hlt] at hqu
        simp at hqu

theorem walkSubs_inversion (path : String) (s : FSubs) :
    ∀ q u, (q, u) ∈ walkSubs path s →
      ∃ n' t', (n', t') ∈ subsList s ∧
        ((q = joinPath path n' ∧ u = t') ∨
          ∃ r w n, (r, w) ∈ walkSubs path s ∧ (n, u) ∈ subsList w.subsOf ∧ q = joinPath r n) := by
  cases s with
  | nil => intro q u hqu; simp [walkSubs] at hqu
  | cons n' t' rest =>
      intro q u hqu
      unfold walkSubs at hqu
      rcases List.mem_append.mp hqu with he | he
      · rcases walk_inversion (joinPath path n') t' q u he with ⟨hq, hu⟩ | ⟨r, w, n, hrw, hnu, hq⟩
        · exact ⟨n', t', by simp [subsList], Or.inl ⟨hq, hu⟩⟩
        · refine ⟨n', t', by simp [subsList], Or.inr ⟨r, w, n, ?_, hnu, hq⟩⟩
          show (r, w) ∈ osWalk (joinPath path n') t' ++ walkSubs path rest
          exact List.mem_append.mpr (Or.inl hrw)
      · rcases walkSubs_inversion path rest q u he with ⟨n'', t'', hmem, hcase⟩
        refine ⟨n'', t'', by simp [subsList, hmem], ?_⟩
        rcases hcase with hcl | ⟨r, w, n, hrw, hnu, hq⟩
        · exact Or.inl hcl
        · refine Or.inr ⟨r, w, n, ?_, hnu, hq⟩
          show (r, w) ∈ osWalk (joinPath path n') t' ++ walkSubs path rest
          exact List.mem_append.mpr (Or.inr hrw)
end

mutual
theorem walk_sub_sublist (path : String) (t : FSTree) :
    ∀ r w, (r, w) ∈ osWalk path t → (osWalk r w).Sublist (osWalk path t) := by
  cases t with
  | node files subs l st b m =>
      intro r w hrw
      unfold osWalk at hrw
      by_cases hlt : l = true
      · rw [if_pos hlt] at hrw
        rcases List.mem_cons.mp hrw with he | he
        · have hr : r = path := congrArg Prod.fst he
          have hw : w = FSTree.node files subs l st b m := congrArg Prod.snd he
          rw [hr, hw]
        · have hsub := walkSubs_sub_sublist path subs r w he
          refine hsub.trans ?_
          unfold osWalk
          rw [if_pos hlt]
          exact List.sublist_cons_self _ _
      · rw [if_neg hlt] at hrw
        simp at hrw

theorem walkSubs_sub_sublist (path : String) (s : FSubs) :
    ∀ r w, (r, w) ∈ walkSubs path s → (osWalk r w).Sublist (walkSubs path s) := by
  cases s with
  | nil => intro r w hrw; simp [walkSubs] at hrw
  | cons n' t' rest =>
      intro r w hrw
      unfold walkSubs at hrw ⊢
      rcases List.mem_append.mp hrw with he | he
      · exact (walk_sub_sublist (joinPath path n') t' r w he).trans
          (List.sublist_append_left _ _)
      · exact (walkSubs_sub_sublist path rest r w he).trans
          (List.sublist_append_right _ _)
end

mutual
theorem walk_allStatOk (path : String) (t : FSTree) (h : allStatOk t = true) :
    ∀ e ∈ osWalk path t, allStatOk e.2 = true := by
  cases t with
  | node files subs l st b m =>
      intro e he
      unfold osWalk at he
      by_cases hlt : l = true
      · rw [if_pos hlt] at he
        rcases List.mem_cons.mp he with h1 | h1
        · rw [show e.2 = FSTree.node files subs l st b m from congrArg Prod.snd h1]
          exact h
        · have hsubs : allStatOkSubs subs = true := by
            unfold allStatOk at h
            rw [Bool.and_eq_true] at h
            exact h.2
          exact walkSubs_allStatOk path subs hsubs e h1
      · rw [if_neg hlt] at he
        simp at he

theorem walkSubs_allStatOk (path : String) (s : FSubs) (h : allStatOkSubs s = true) :
    ∀ e ∈ walkSubs path s, allStatOk e.2 = true := by
  cases s with
  | nil => intro e he; simp [walkSubs] at he
  | cons n t rest =>
      intro e he
      have h' : allStatOk t = true ∧ allStatOkSubs rest = true := by
        unfold allStatOkSubs at h
        rw [Bool.and_eq_true] at h
        exact h
      unfold walkSubs at he
      rcases List.mem_append.mp he with h1 | h1
      · exact walk_allStatOk (joinPath path n) t h'.1 e h1
      · exact walkSubs_allStatOk path rest h'.2 e h1
end

/-! ## Characterizing the chains inside a walk -/

theorem walk_keys_length (root : String) (t : FSTree) (hg : goodAbs root = true)
    (hw : wfTree t = true) : ∀ e ∈ osWalk root t, root.length ≤ e.1.length := by
  intro e he
  obtain ⟨_, _, _, hcase⟩ := walk_entry_facts root t hg hw e he
  rcases hcase with hroot | ⟨n, t', _, hn, hu⟩
  · rw [show e.1 = root from congrArg Prod.fst hroot]
  · exact Nat.le_of_lt (underName_length hu hn)

theorem joinPath_ne_base {p n : String} (hg : goodAbs p = true) (hn : wfName n = true) :
    joinPath p n ≠ p := by
  intro hc
  have h1 := length_join p n
  rw [joinPath_eq hg hn] at hc
  rw [hc] at h1
  obtain ⟨hne, _⟩ := wfName_elim hn
  have : 0 < n.data.length := List.length_pos.mpr hne
  show False
  have hl : p.length = p.length + 1 + n.length := h1
  have : 0 < n.length := this
  omega

theorem resides_edge (K : List String) (p n : String) (hg : goodAbs p = true)
    (hn : wfName n = true) (hpK : p ∈ K) (hjK : joinPath p n ∈ K) :
    resides K K (joinPath p n) p = true := by
  rw [resides_unfold]
  rw [if_neg (joinPath_ne_base hg hn)]
  have hdir : dirname (joinPath p n) = p := by
    rw [joinPath_eq hg hn]
    exact dirname_join hg hn
  rw [if_pos ⟨by rw [hdir]; exact fun hc => joinPath_ne_base hg hn hc.symm,
    by rw [hdir]; exact hpK, hjK⟩]
  rw [hdir]
  exact resides_self K K p

mutual
theorem walk_entry_listable (path : String) (t : FSTree) :
    ∀ q u, (q, u) ∈ osWalk path t → u.listableOf = true := by
  cases t with
  | node files subs l st b m =>
      intro q u h
      unfold osWalk at h
      by_cases hlt : l = true
      · rw [if_pos hlt] at h
        rcases List.mem_cons.mp h with he | he
        · rw [show u = FSTree.node files subs l st b m from congrArg Prod.snd he]
          simpa [FSTree.listableOf] using hlt
        · exact walkSubs_entry_listable path subs q u he
      · rw [if_neg hlt] at h
        simp at h

theorem walkSubs_entry_listable (path : String) (s : FSubs) :
    ∀ q u, (q, u) ∈ walkSubs path s → u.listableOf = true := by
  cases s with
  | nil => intro q u h; simp [walkSubs] at h
  | cons n t rest =>
      intro q u h
      unfold walkSubs at h
      rcases List.mem_append.mp h with he | he
      · exact walk_entry_listable (joinPath path n) t q u he
      · exact walkSubs_entry_listable path rest q u he
end

theorem walk_root_listable {path : String} {t : FSTree} {x : String × FSTree}
    (h : x ∈ osWalk path t) : t.listableOf = true := by
  cases t with
  | node files subs l st b m =>
      unfold osWalk at h
      by_cases hlt : l = true
      · simpa [FSTree.listableOf] using hlt
      · rw [if_neg hlt] at h
        simp at h

mutual
theorem resides_chain (K : List String) (p : String) (st : FSTree) :
    goodAbs p = true → wfTree st = true →
    (∀ e ∈ osWalk p st, e.1 ∈ K) →
    ∀ q u, (q, u) ∈ osWalk p st → resides K K q p = true := by
  cases st with
  | node files subs l s b m =>
      intro hg hw hK q u hqu
      unfold osWalk at hqu hK
      by_cases hlt : l = true
      · rw [if_pos hlt] at hqu hK
        have hpK : p ∈ K := hK (p, FSTree.node files subs l s b m) (by simp)
        rcases List.mem_cons.mp hqu with he | he
        · rw [show q = p from congrArg Prod.fst he]
          exact resides_self K K p
        · exact resides_chain_subs K p subs hg (wfTree_elim hw).2 hpK
            (fun e hee => hK e (List.mem_cons.mpr (Or.inr hee))) q u he
      · rw [if_neg hlt] at hqu
        simp at hqu

theorem resides_chain_subs (K : List String) (p : String) (s : FSubs) :
    goodAbs p = true → wfSubs s = true → p ∈ K →
    (∀ e ∈ walkSubs p s, e.1 ∈ K) →
    ∀ q u, (q, u) ∈ walkSubs p s → resides K K q p = true := by
  cases s with
  | nil => intro _ _ _ _ q u hqu; simp [walkSubs] at hqu
  | cons n t rest =>
      intro hg hw hpK hK q u hqu
      obtain ⟨hn, hwt, hwr⟩ := wfSubs_elim hw
      unfold walkSubs at hqu hK
      rcases List.mem_append.mp hqu with he | he
      · have hgj : goodAbs (joinPath p n) = true := by
          rw [joinPath_eq hg hn]
          exact goodAbs_join hn
        have hq1 : resides K K q (joinPath p n) = true :=
          resides_chain K (joinPath p n) t hgj hwt
            (fun e hee => hK e (List.mem_append.mpr (Or.inl hee))) q u he
        have hlistT : t.listableOf = true := walk_root_listable he
        have hjK : joinPath p n ∈ K :=
          hK (joinPath p n, t)
            (List.mem_append.mpr (Or.inl (walk_head_mem _ t hlistT)))
        exact resides_trans hq1 (resides_edge K p n hg hn hpK hjK)
      · exact resides_chain_subs K p rest hg hwr hpK
          (fun e hee => hK e (List.mem_append.mpr (Or.inr hee))) q u he
end

theorem wfTree_parts (w : FSTree) (h : wfTree w = true) :
    nodupNames (subsNames w.subsOf) = true ∧ wfSubs w.subsOf = true := by
  cases w with
  | node files subs l st b m => exact wfTree_elim h

theorem resides_to_subkey (root : String) (t : FSTree) (hg : goodAbs root = true)
    (hw : wfTree t = true) (p : String) (st : FSTree) (hps : (p, st) ∈ osWalk root t) :
    ∀ (m : Nat) (q : String), q.length = m → q ∈ walkKeys root t →
      resides (walkKeys root t) (walkKeys root t) q p = true →
      q ∈ walkKeys p st := by
  intro m
  induction m using Nat.strong_induction_on with
  | _ m ih =>
      intro q hm hqK hres
      rw [resides_unfold] at hres
      by_cases hqp : q = p
      · subst hqp
        have hstl : st.listableOf = true := walk_entry_listable root t q st hps
        exact List.mem_map.mpr ⟨(q, st), walk_head_mem q st hstl, rfl⟩
      · rw [if_neg hqp] at hres
        by_cases hgd : dirname q ≠ q ∧ dirname q ∈ walkKeys root t ∧ q ∈ walkKeys root t
        · rw [if_pos hgd] at hres
          have hlt : (dirname q).length < q.length := dirname_length_lt hgd.1
          have hdk := ih (dirname q).length (by omega) (dirname q) rfl hgd.2.1 hres
          obtain ⟨⟨q1, u⟩, hqu, hfst⟩ := List.mem_map.mp hqK
          have hq1 : q1 = q := hfst
          rw [hq1] at hqu
          rcases walk_inversion root t q u hqu with ⟨hqroot, _⟩ | ⟨r, w, n, hrw, hnu, hqe⟩
          · exfalso
            obtain ⟨e2, he2, hf2⟩ := List.mem_map.mp hgd.2.1
            have h1 : root.length ≤ e2.1.length := walk_keys_length root t hg hw e2 he2
            rw [hf2] at h1
            rw [hqroot] at hlt h1
            omega
          · obtain ⟨hgr, hwr, _, _⟩ := walk_entry_facts root t hg hw (r, w) hrw
            have hnw := wfSubs_mem _ (wfTree_parts w hwr).2 hnu
            have hdq : dirname q = r := by
              rw [hqe, joinPath_eq hgr hnw.1]
              exact dirname_join hgr hnw.1
            rw [hdq] at hdk
            obtain ⟨⟨r1, w2⟩, her, hfr⟩ := List.mem_map.mp hdk
            have hr1 : r1 = r := hfr
            rw [hr1] at her
            have hrw2full : (r, w2) ∈ osWalk root t :=
              (walk_sub_sublist root t p st hps).subset her
            have hweq : w2 = w :=
              keyval_unique (walk_keys_nodup root t hg hw) hrw2full hrw
            have hul : u.listableOf = true := walk_entry_listable root t q u hqu
            have hmem := walk_emit p st r w2 her n u (by rw [hweq]; exact hnu) hul
            rw [hqe]
            exact List.mem_map.mpr ⟨(joinPath r n, u), hmem, rfl⟩
        · rw [if_neg hgd] at hres
          simp at hres

theorem filter_keys_of_sublist {β : Type} {sub l : List (String × β)}
    (hs : sub.Sublist l) :
    (l.map Prod.fst).Nodup →
    l.filter (fun e => decide (e.1 ∈ sub.map Prod.fst)) = sub := by
  induction hs with
  | slnil => intro _; rfl
  | @cons l₁ l₂ a hs ih =>
      intro hnd
      rw [List.map_cons, List.nodup_cons] at hnd
      rw [List.filter_cons]
      rw [if_neg (by
        simp only [decide_eq_true_eq]
        intro hc
        apply hnd.1
        obtain ⟨x, hx, hfx⟩ := List.mem_map.mp hc
        exact List.mem_map.mpr ⟨x, hs.subset hx, hfx⟩)]
      exact ih hnd.2
  | @cons₂ l₁ l₂ a hs ih =>
      intro hnd
      rw [List.map_cons, List.nodup_cons] at hnd
      rw [List.filter_cons]
      rw [if_pos (by simp)]
      have hcongr : ∀ x ∈ l₂, (decide (x.1 ∈ (a :: l₁).map Prod.fst) : Bool)
          = (decide (x.1 ∈ l₁.map Prod.fst) : Bool) := by
        intro x hx
        have hxa : x.1 ≠ a.1 := fun hc => hnd.1 (List.mem_map.mpr ⟨x, hx, hc⟩)
        simp [hxa]
      rw [List.filter_congr (fun x hx => hcongr x hx)]
      rw [ih hnd.2]

mutual
theorem walk_sizes_sum (path : String) (t : FSTree) :
    ((osWalk path t).map (fun e => dirDirectSize e.2.filesOf)).sum
      = if t.listableOf then aggVal t else 0 := by
  cases t with
  | node files subs l st b m =>
      unfold osWalk
      by_cases hlt : l = true
      · rw [if_pos hlt]
        rw [List.map_cons, List.sum_cons]
        rw [walkSubs_sizes_sum path subs]
        rw [if_pos (show (FSTree.node files subs l st b m).listableOf = true by
          simpa [FSTree.listableOf] using hlt)]
        rfl
      · rw [if_neg hlt]
        rw [if_neg (show ¬ (FSTree.node files subs l st b m).listableOf = true by
          simpa [FSTree.listableOf] using hlt)]
        rfl

theorem walkSubs_sizes_sum (path : String) (s : FSubs) :
    ((walkSubs path s).map (fun e => dirDirectSize e.2.filesOf)).sum = aggValSubs s := by
  cases s with
  | nil => rfl
  | cons n t rest =>
      unfold walkSubs
      rw [List.map_append, List.sum_append]
      rw [walk_sizes_sum (joinPath path n) t, walkSubs_sizes_sum path rest]
      rfl
end

/-- Master lemma: after the aggregation pass, every walked directory's
entry holds its reachable-subtree total. -/
theorem precompute_lookup (root : String) (t : FSTree)
    (hg : goodAbs root = true) (hw : wfTree t = true) :
    ∀ e ∈ osWalk root t,
      lookupStr (precompute_directory_sizes root t) e.1 = some (aggVal e.2) := by
  intro e he
  have hkeys : ((osWalk root t).map (fun x => (x.1, dirDirectSize x.2.filesOf))).map Prod.fst
      = walkKeys root t := by
    rw [List.map_map]
    rfl
  have hnd : (((osWalk root t).map
      (fun x => (x.1, dirDirectSize x.2.filesOf))).map Prod.fst).Nodup := by
    rw [hkeys]
    exact walk_keys_nodup root t hg hw
  have hpK : e.1 ∈ ((osWalk root t).map
      (fun x => (x.1, dirDirectSize x.2.filesOf))).map Prod.fst := by
    rw [hkeys]
    exact List.mem_map.mpr ⟨e, he, rfl⟩
  have hfold := fold_closed _ hnd e.1 hpK
  rw [show precompute_directory_sizes root t
      = (sortLenDesc (((osWalk root t).map
          (fun x => (x.1, dirDirectSize x.2.filesOf))).map Prod.fst)).foldl
        aggStep ((osWalk root t).map (fun x => (x.1, dirDirectSize x.2.filesOf))) from rfl]
  rw [hfold]
  congr 1
  obtain ⟨p, st⟩ := e
  show resSum _ _ _ p = aggVal st
  unfold resSum
  rw [hkeys]
  have hsubkeys : ((osWalk p st).map
      (fun x => (x.1, dirDirectSize x.2.filesOf))).map Prod.fst = walkKeys p st := by
    rw [List.map_map]
    rfl
  have hiff : ∀ x ∈ (osWalk root t).map (fun x => (x.1, dirDirectSize x.2.filesOf)),
      (fun e => resides (walkKeys root t) (walkKeys root t) e.1 p) x
        = (fun e : String × Nat => decide (e.1 ∈ ((osWalk p st).map
            (fun x => (x.1, dirDirectSize x.2.filesOf))).map Prod.fst)) x := by
    intro x hx
    show resides (walkKeys root t) (walkKeys root t) x.1 p
      = decide (x.1 ∈ ((osWalk p st).map
          (fun x => (x.1, dirDirectSize x.2.filesOf))).map Prod.fst)
    rw [hsubkeys]
    obtain ⟨⟨q, u⟩, hqu, hfq⟩ := List.mem_map.mp hx
    have hx1 : x.1 = q := by rw [← hfq]
    rw [hx1]
    have hqK : q ∈ walkKeys root t := List.mem_map.mpr ⟨(q, u), hqu, rfl⟩
    cases hres : resides (walkKeys root t) (walkKeys root t) q p with
    | true =>
        have hqsub := resides_to_subkey root t hg hw p st he q.length q rfl hqK hres
        simp [hqsub]
    | false =>
        by_cases hqsub : q ∈ walkKeys p st
        · exfalso
          obtain ⟨⟨q2, u2⟩, hq2, hf2⟩ := List.mem_map.mp hqsub
          have hq2' : q2 = q := hf2
          rw [hq2'] at hq2
          obtain ⟨hgp, hwp, _, _⟩ := walk_entry_facts root t hg hw (p, st) he
          have hchain := resides_chain (walkKeys root t) p st hgp hwp
            (fun x2 hx2 => List.mem_map.mpr
              ⟨x2, (walk_sub_sublist root t p st he).subset hx2, rfl⟩)
            q u2 hq2
          rw [hres] at hchain
          exact Bool.false_ne_true hchain
        · simp [hqsub]
  rw [List.filter_congr hiff]
  rw [filter_keys_of_sublist
    (List.Sublist.map _ (walk_sub_sublist root t p st he)) hnd]
  rw [List.map_map]
  have hfin2 : ((osWalk p st).map (fun e => dirDirectSize e.2.filesOf)).sum
      = if st.listableOf then aggVal st else 0 := walk_sizes_sum p st
  rw [if_pos (walk_entry_listable root t p st he)] at hfin2
  exact hfin2

/-! ## Claim C2 -/

theorem dirDirectSize_of_statOk (files : List FileEnt) (h : ∀ f ∈ files, f.statOk = true) :
    dirDirectSize files = ((files.filter (fun f => !f.isLink)).map FileEnt.size).sum := by
  unfold dirDirectSize
  rw [if_neg (by
    rw [List.any_eq_true]
    rintro ⟨f, hf, hff⟩
    rw [Bool.and_eq_true] at hff
    rw [h f hf] at hff
    simp at hff)]

mutual
theorem aggVal_eq_reachable (t : FSTree) (h : allStatOk t = true) (hl : t.listableOf = true) :
    aggVal t = reachableBytes t := by
  cases t with
  | node files subs l st b m =>
      have hparts : files.all (fun f => f.statOk) = true ∧ allStatOkSubs subs = true := by
        unfold allStatOk at h
        rw [Bool.and_eq_true] at h
        exact h
      show dirDirectSize files + aggValSubs subs = _
      unfold reachableBytes
      rw [if_pos (show l = true by simpa [FSTree.listableOf] using hl)]
      rw [dirDirectSize_of_statOk files (by
        have := hparts.1
        rw [List.all_eq_true] at this
        exact this)]
      rw [aggValSubs_eq_reachable subs hparts.2]

theorem aggValSubs_eq_reachable (s : FSubs) (h : allStatOkSubs s = true) :
    aggValSubs s = reachableBytesSubs s := by
  cases s with
  | nil => rfl
  | cons n t rest =>
      have hparts : allStatOk t = true ∧ allStatOkSubs rest = true := by
        unfold allStatOkSubs at h
        rw [Bool.and_eq_true] at h
        exact h
      show (if t.listableOf then aggVal t else 0) + aggValSubs rest
        = reachableBytes t + reachableBytesSubs rest
      rw [aggValSubs_eq_reachable rest hparts.2]
      by_cases hl : t.listableOf = true
      · rw [if_pos hl, aggVal_eq_reachable t hparts.1 hl]
      · rw [if_neg hl]
        have hzero : reachableBytes t = 0 := by
          cases t with
          | node f2 s2 l2 st2 b2 m2 =>
              unfold reachableBytes
              rw [if_neg (show ¬ l2 = true from by
                simpa [FSTree.listableOf] using hl)]
        rw [hzero]
end

/-- C2: after the two passes, the size-map entry of the root path is
the total byte count of every file the traversal can reach under the
root, symbolic-link files excluded. -/
theorem claim_C2 (root : String) (t : FSTree)
    (hg : goodAbs root = true) (hw : wfTree t = true)
    (hl : t.listableOf = true) (hs : allStatOk t = true) :
    lookupStr (precompute_directory_sizes root t) root = some (reachableBytes t) := by
  have hmaster := precompute_lookup root t hg hw (root, t) (walk_head_mem root t hl)
  rw [show lookupStr (precompute_directory_sizes root t) root
      = lookupStr (precompute_directory_sizes root t) (root, t).1 from rfl]
  rw [hmaster]
  rw [show aggVal (root, t).2 = aggVal t from rfl]
  rw [aggVal_eq_reachable t hs hl]

/-- C2 witness: the walkthrough tree totals 3072 bytes at the root. -/
theorem claim_C2_witness :
    goodAbs "/scan" = true ∧ wfTree treeScenario = true ∧
    treeScenario.listableOf = true ∧ allStatOk treeScenario = true ∧
    lookupStr (precompute_directory_sizes "/scan" treeScenario) "/scan"
      = some (reachableBytes treeScenario) ∧
    reachableBytes treeScenario = 3072 :=
  ⟨rfl, rfl, rfl, rfl, claim_C2 "/scan" treeScenario rfl rfl rfl rfl, rfl⟩

/-! ## Claim C1 -/

theorem precompute_lookup_none (root : String) (t : FSTree)
    (hg : goodAbs root = true) (hw : wfTree t = true) (x : String)
    (hx : x ∉ walkKeys root t) :
    lookupStr (precompute_directory_sizes root t) x = none := by
  have hkeys : ((osWalk root t).map (fun y => (y.1, dirDirectSize y.2.filesOf))).map Prod.fst
      = walkKeys root t := by
    rw [List.map_map]
    rfl
  have hnd : (((osWalk root t).map
      (fun y => (y.1, dirDirectSize y.2.filesOf))).map Prod.fst).Nodup := by
    rw [hkeys]
    exact walk_keys_nodup root t hg hw
  have h := fold_inv _ hnd
    (sortLenDesc (((osWalk root t).map
      (fun y => (y.1, dirDirectSize y.2.filesOf))).map Prod.fst)) [] _
    (by simpa using sortLenDesc_perm _)
    (by intro r hr; simp at hr)
    (sortLenDesc_pairwise _)
    (lookupStr_init _ _ hnd)
    x
  rw [show precompute_directory_sizes root t
      = (sortLenDesc (((osWalk root t).map
          (fun y => (y.1, dirDirectSize y.2.filesOf))).map Prod.fst)).foldl
        aggStep ((osWalk root t).map (fun y => (y.1, dirDirectSize y.2.filesOf))) from rfl]
  rw [h]
  rw [if_neg (by rw [hkeys]; exact hx)]

theorem joinPath_inj {p r n n' : String} (hgp : goodAbs p = true) (hgr : goodAbs r = true)
    (hn : wfName n = true) (hn' : wfName n' = true)
    (h : joinPath p n = joinPath r n') : p = r ∧ n = n' := by
  have hpr : p = r := by
    have h1 : dirname (joinPath p n) = p := by
      rw [joinPath_eq hgp hn]
      exact dirname_join hgp hn
    have h2 : dirname (joinPath r n') = r := by
      rw [joinPath_eq hgr hn']
      exact dirname_join hgr hn'
    rw [← h1, ← h2, h]
  refine ⟨hpr, ?_⟩
  rw [joinPath_eq hgp hn, joinPath_eq hgr hn'] at h
  have hd := congrArg String.data h
  simp only at hd
  rw [hpr] at hd
  have := List.append_cancel_left hd
  have := List.tail_eq_of_cons_eq this
  exact String.ext this

theorem child_not_in_keys (root : String) (t : FSTree)
    (hg : goodAbs root = true) (hw : wfTree t = true)
    {p : String} {st : FSTree} (hps : (p, st) ∈ osWalk root t)
    {n : String} {c : FSTree} (hnc : (n, c) ∈ subsList st.subsOf)
    (hcl : c.listableOf = false) : joinPath p n ∉ walkKeys root t := by
  obtain ⟨hgp0, hwp0, _, _⟩ := walk_entry_facts root t hg hw (p, st) hps
  have hgp : goodAbs p = true := hgp0
  have hwp : wfTree st = true := hwp0
  have hn : wfName n = true := (wfSubs_mem _ (wfTree_parts st hwp).2 hnc).1
  intro hc
  obtain ⟨⟨q1, u⟩, hqu, hfst⟩ := List.mem_map.mp hc
  have hq1 : q1 = joinPath p n := hfst
  rw [hq1] at hqu
  rcases walk_inversion root t (joinPath p n) u hqu with ⟨hqroot, _⟩ | ⟨r, w, n', hrw, hnu, hqe⟩
  · -- the join cannot be the root: it is strictly longer than `p ≥ root`
    have h1 : root.length ≤ p.length := walk_keys_length root t hg hw (p, st) hps
    have h2 : (joinPath p n).length = p.length + 1 + n.length := by
      rw [joinPath_eq hgp hn]
      exact length_join p n
    rw [hqroot] at h2
    obtain ⟨hne, _⟩ := wfName_elim hn
    have : 0 < n.length := List.length_pos.mpr hne
    omega
  · obtain ⟨hgr, hwr, _, _⟩ := walk_entry_facts root t hg hw (r, w) hrw
    have hn' : wfName n' = true := (wfSubs_mem _ (wfTree_parts w hwr).2 hnu).1
    obtain ⟨hpr, hnn⟩ := joinPath_inj hgp hgr hn hn' hqe
    have hrw' : (p, w) ∈ osWalk root t := by
      rw [hpr]
      exact hrw
    have hweq : w = st := keyval_unique (walk_keys_nodup root t hg hw) hrw' hps
    have hnu' : (n, u) ∈ subsList st.subsOf := by
      rw [hnn, ← hweq]
      exact hnu
    have hcc : u = c := subs_val_unique _ (wfTree_parts st hwp).1 hnu' hnc
    have hul : u.listableOf = true := walk_entry_listable root t (joinPath p n) u hqu
    rw [hcc, hcl] at hul
    exact Bool.false_ne_true hul

theorem childSum_eq (root : String) (t : FSTree)
    (hg : goodAbs root = true) (hw : wfTree t = true)
    (p : String) (st : FSTree) (hps : (p, st) ∈ osWalk root t) :
    ∀ (s : FSubs), (∀ x ∈ subsList s, x ∈ subsList st.subsOf) →
      childLookupSum (precompute_directory_sizes root t) p s = aggValSubs s := by
  intro s
  cases s with
  | nil => intro _; rfl
  | cons n c rest =>
      intro hsub
      have hmem : (n, c) ∈ subsList st.subsOf := hsub (n, c) (by
        show (n, c) ∈ (n, c) :: subsList rest
        simp)
      show (lookupStr (precompute_directory_sizes root t) (joinPath p n)).getD 0
          + childLookupSum (precompute_directory_sizes root t) p rest
        = (if c.listableOf then aggVal c else 0) + aggValSubs rest
      have hrest := childSum_eq root t hg hw p st hps rest (fun x hx =>
        hsub x (by
          show x ∈ (n, c) :: subsList rest
          exact List.mem_cons.mpr (Or.inr hx)))
      rw [hrest]
      congr 1
      by_cases hlc : c.listableOf = true
      · have hememit := walk_emit root t p st hps n c hmem hlc
        rw [precompute_lookup root t hg hw (joinPath p n, c) hememit]
        rw [if_pos hlc]
        rfl
      · have hnone := precompute_lookup_none root t hg hw (joinPath p n)
          (child_not_in_keys root t hg hw hps hmem (Bool.not_eq_true _ ▸ hlc))
        rw [hnone, if_neg hlc]
        rfl

/-- C1: after the aggregation pass, every directory present in the map
stores the sum of the byte sizes of its direct non-symlink files plus
the stored values of those of its immediate subdirectories that are
present in the map. -/
theorem claim_C1 (root : String) (t : FSTree)
    (hg : goodAbs root = true) (hw : wfTree t = true) (hs : allStatOk t = true) :
    ∀ e ∈ osWalk root t,
      lookupStr (precompute_directory_sizes root t) e.1
        = some ((((e.2.filesOf.filter (fun f => !f.isLink)).map FileEnt.size).sum)
            + childLookupSum (precompute_directory_sizes root t) e.1 e.2.subsOf) := by
  intro e he
  obtain ⟨p, st⟩ := e
  rw [precompute_lookup root t hg hw (p, st) he]
  have hsst : allStatOk st = true := walk_allStatOk root t hs (p, st) he
  have hchild := childSum_eq root t hg hw p st he st.subsOf (fun x hx => hx)
  cases st with
  | node files subs l st2 b m =>
      show some (dirDirectSize files + aggValSubs subs) = _
      have hstat : ∀ f ∈ files, f.statOk = true := by
        unfold allStatOk at hsst
        rw [Bool.and_eq_true] at hsst
        have := hsst.1
        rw [List.all_eq_true] at this
        exact this
      rw [dirDirectSize_of_statOk files hstat]
      have hchild' : childLookupSum (precompute_directory_sizes root t) p subs
          = aggValSubs subs := hchild
      rw [← hchild']
      rfl

/-- C1 witness: at the walkthrough tree's root, 1024 (direct `x.txt`)
plus the stored 2048 of `sub`. -/
theorem claim_C1_witness :
    goodAbs "/scan" = true ∧ wfTree treeScenario = true ∧
    allStatOk treeScenario = true ∧
    ("/scan", treeScenario) ∈ osWalk "/scan" treeScenario ∧
    lookupStr (precompute_directory_sizes "/scan" treeScenario) "/scan"
      = some ((((treeScenario.filesOf.filter (fun f => !f.isLink)).map FileEnt.size).sum)
          + childLookupSum (precompute_directory_sizes "/scan" treeScenario) "/scan"
              treeScenario.subsOf) :=
  ⟨rfl, rfl, rfl, walk_head_mem "/scan" treeScenario rfl,
    claim_C1 "/scan" treeScenario rfl rfl rfl ("/scan", treeScenario)
      (walk_head_mem "/scan" treeScenario rfl)⟩

/-! ## Claim C3 -/

/-- C3 counterexample: in `treeUnlistableSub` the walked root announces
the unlistable child `sub` and traversal continues (the root keeps its
own entry), yet `/scan/sub` is absent from the map instead of present
with value 0: `os.walk(onerror=None)` never yields an unlistable
directory, so the `except OSError` of source lines 285-292 (which fires
on a failing `getsize`) never creates an entry for it. -/
theorem claim_C3_counterexample :
    ("sub", subUnlistable) ∈ subsList treeUnlistableSub.subsOf ∧
    subUnlistable.listableOf = false ∧
    lookupStr (precompute_directory_sizes "/scan" treeUnlistableSub)
        (joinPath "/scan" "sub") = none ∧
    lookupStr (precompute_directory_sizes "/scan" treeUnlistableSub) "/scan" = some 1024 := by
  refine ⟨?_, rfl, rfl, rfl⟩
  show ("sub", subUnlistable) ∈ [("sub", subUnlistable)]
  simp

/-- C3 (amended): error handling of the size pass.  (a) A child
directory whose listing fails is absent from the map entirely — its key
is not present — while (b) every listable child is still walked and
recorded, so traversal continues rather than aborting, and (c) a walked
directory in which some non-symlink file's `getsize` fails still gets
an entry, holding only its subdirectories' aggregate: its own direct
contribution defaults to 0. -/
theorem claim_C3 (root : String) (t : FSTree)
    (hg : goodAbs root = true) (hw : wfTree t = true)
    {p : String} {st : FSTree} (hps : (p, st) ∈ osWalk root t) :
    (∀ n c, (n, c) ∈ subsList st.subsOf → c.listableOf = false →
        lookupStr (precompute_directory_sizes root t) (joinPath p n) = none) ∧
    (∀ n c, (n, c) ∈ subsList st.subsOf → c.listableOf = true →
        lookupStr (precompute_directory_sizes root t) (joinPath p n) = some (aggVal c)) ∧
    (st.filesOf.any (fun f => !f.isLink && !f.statOk) = true →
        lookupStr (precompute_directory_sizes root t) p = some (aggValSubs st.subsOf)) := by
  refine ⟨?_, ?_, ?_⟩
  · intro n c hnc hcl
    exact precompute_lookup_none root t hg hw (joinPath p n)
      (child_not_in_keys root t hg hw hps hnc hcl)
  · intro n c hnc hcl
    exact precompute_lookup root t hg hw (joinPath p n, c)
      (walk_emit root t p st hps n c hnc hcl)
  · intro hfail
    rw [precompute_lookup root t hg hw (p, st) hps]
    congr 1
    cases st with
    | node files subs l s b m =>
        show dirDirectSize files + aggValSubs subs = aggValSubs subs
        unfold dirDirectSize
        rw [if_pos (by exact hfail)]
        exact Nat.zero_add _

/-- C3 witness: in `treeUnlistableSub` the unlistable child `sub` is
absent from the map while the walked root still holds its entry. -/
theorem claim_C3_witness :
    goodAbs "/scan" = true ∧ wfTree treeUnlistableSub = true ∧
    ("/scan", treeUnlistableSub) ∈ osWalk "/scan" treeUnlistableSub ∧
    ("sub", subUnlistable) ∈ subsList treeUnlistableSub.subsOf ∧
    subUnlistable.listableOf = false ∧
    lookupStr (precompute_directory_sizes "/scan" treeUnlistableSub)
        (joinPath "/scan" "sub") = none := by
  have hmem : ("/scan", treeUnlistableSub) ∈ osWalk "/scan" treeUnlistableSub :=
    walk_head_mem "/scan" treeUnlistableSub rfl
  have hsub : ("sub", subUnlistable) ∈ subsList treeUnlistableSub.subsOf := by
    show ("sub", subUnlistable) ∈ [("sub", subUnlistable)]
    simp
  exact ⟨rfl, rfl, hmem, hsub, rfl,
    (claim_C3 "/scan" treeUnlistableSub rfl rfl hmem).1 "sub" subUnlistable hsub rfl⟩

/-! ## Claim C10 -/

theorem dirChildItems_mem (path : String) (s : FSubs) :
    ∀ it ∈ dirChildItems path s,
      ∃ n c, (n, c) ∈ subsList s ∧ it = ⟨joinPath path n, .dirE c⟩ := by
  cases s with
  | nil => intro it hit; simp [dirChildItems] at hit
  | cons n t rest =>
      intro it hit
      have hit' : it ∈ (⟨joinPath path n, .dirE t⟩ : Item) :: dirChildItems path rest := hit
      rcases List.mem_cons.mp hit' with he | he
      · refine ⟨n, t, ?_, he⟩
        show (n, t) ∈ (n, t) :: subsList rest
        simp
      · obtain ⟨n', c', hm, heq⟩ := dirChildItems_mem path rest it he
        refine ⟨n', c', ?_, heq⟩
        show (n', c') ∈ (n, t) :: subsList rest
        exact List.mem_cons.mpr (Or.inr hm)

theorem stepItem_rows (tagsOf kindOf : String → String) (ds : List (String × Nat))
    (s : ScanState) (it : Item) :
    ∀ r ∈ (stepItem tagsOf kindOf ds s it).rows, r ∈ s.rows ∨ r.path = it.path := by
  intro r hr
  unfold stepItem at hr
  cases hinfo : get_file_info tagsOf kindOf ds it with
  | none =>
      rw [hinfo] at hr
      left
      exact hr
  | some info =>
      rw [hinfo] at hr
      have hr2 : r ∈ s.rows ++ [⟨s.row_number, it.path, info.size, info.created,
          info.modified, info.hidden, info.tags, info.kind, info.file_type,
          get_path_levels it.path⟩] := hr
      rcases List.mem_append.mp hr2 with h | h
      · left; exact h
      · right
        have he : r = ⟨s.row_number, it.path, info.size, info.created, info.modified,
            info.hidden, info.tags, info.kind, info.file_type,
            get_path_levels it.path⟩ := by simpa using h
        rw [he]

theorem foldl_rows_from (tagsOf kindOf : String → String) (ds : List (String × Nat)) :
    ∀ (items : List Item) (s : ScanState) r,
      r ∈ (items.foldl (stepItem tagsOf kindOf ds) s).rows →
      r ∈ s.rows ∨ ∃ it ∈ items, r.path = it.path := by
  intro items
  induction items with
  | nil => intro s r hr; left; exact hr
  | cons it rest ih =>
      intro s r hr
      rw [List.foldl_cons] at hr
      rcases ih (stepItem tagsOf kindOf ds s it) r hr with h | ⟨it', hit', hp⟩
      · rcases stepItem_rows tagsOf kindOf ds s it r h with h2 | h2
        · left; exact h2
        · right; exact ⟨it, by simp, h2⟩
      · right; exact ⟨it', List.mem_cons.mpr (Or.inr hit'), hp⟩

mutual
theorem collect_under (path : String) (t : FSTree)
    (hg : goodAbs path = true) (hw : wfTree t = true) :
    ∀ it ∈ collectItems path t, ∃ s, s ≠ [] ∧ it.path.data = path.data ++ '/' :: s := by
  cases t with
  | node files subs l st b m =>
      intro it hit
      unfold collectItems at hit
      by_cases hl : l = true
      · rw [if_pos hl] at hit
        rcases List.mem_append.mp hit with h12 | h3
        · rcases List.mem_append.mp h12 with h1 | h2
          · obtain ⟨n, c, hnc, heq⟩ := dirChildItems_mem path subs it h1
            have hn : wfName n = true := (wfSubs_mem subs (wfTree_elim hw).2 hnc).1
            refine ⟨n.data, (wfName_elim hn).1, ?_⟩
            rw [heq]
            show (joinPath path n).data = path.data ++ '/' :: n.data
            rw [joinPath_eq hg hn]
          · obtain ⟨f, hf, heq⟩ := List.mem_map.mp h2
            have hn : wfName f.name = true := wfTree_files hw f hf
            refine ⟨f.name.data, (wfName_elim hn).1, ?_⟩
            rw [← heq]
            show (joinPath path f.name).data = path.data ++ '/' :: f.name.data
            rw [joinPath_eq hg hn]
        · exact collect_under_subs path subs hg (wfTree_elim hw).2 it h3
      · rw [if_neg hl] at hit
        simp at hit

theorem collect_under_subs (path : String) (s : FSubs)
    (hg : goodAbs path = true) (hws : wfSubs s = true) :
    ∀ it ∈ collectSubs path s, ∃ u, u ≠ [] ∧ it.path.data = path.data ++ '/' :: u := by
  cases s with
  | nil => intro it hit; simp [collectSubs] at hit
  | cons n c rest =>
      intro it hit
      obtain ⟨hn, hc, hrest⟩ := wfSubs_elim hws
      have hit' : it ∈ collectItems (joinPath path n) c ++ collectSubs path rest := hit
      rcases List.mem_append.mp hit' with h1 | h2
      · have hgj : goodAbs (joinPath path n) = true := by
          rw [joinPath_eq hg hn]
          exact goodAbs_join hn
        obtain ⟨u, hu, hdata⟩ := collect_under (joinPath path n) c hgj hc it h1
        refine ⟨n.data ++ '/' :: u, by simp, ?_⟩
        rw [hdata, joinPath_eq hg hn]
        show path.data ++ '/' :: n.data ++ '/' :: u = path.data ++ '/' :: (n.data ++ '/' :: u)
        simp
      · exact collect_under_subs path rest hg hrest it h2
end

/-- C10: the root directory is never emitted as a record: every row
produced by the collection pass has a path strictly underneath the
starting directory — the root path followed by a slash and at least one
further character — so no row's path equals the root, even though the
root is present in the size map. -/
theorem claim_C10 (tagsOf kindOf : String → String) (root save_path : String)
    (t : FSTree) (saveOk : Bool)
    (hg : goodAbs root = true) (hw : wfTree t = true) :
    ∀ r ∈ (generate_excel tagsOf kindOf root save_path t saveOk).2,
      r.path ≠ root ∧ ∃ s, s ≠ [] ∧ r.path.data = root.data ++ '/' :: s := by
  intro r hr
  by_cases h0 : (count_files_and_max_levels root t).1 = 0
  · simp [generate_excel, h0] at hr
  · simp only [generate_excel] at hr
    rw [if_neg h0] at hr
    have hr' : r ∈ (runCollect tagsOf kindOf (precompute_directory_sizes root t)
        (collectItems root t)).rows := hr
    rcases foldl_rows_from tagsOf kindOf (precompute_directory_sizes root t)
        (collectItems root t) ⟨1, [], 0, 0, 0, 0⟩ r hr' with hin | ⟨it, hit, hp⟩
    · simp at hin
    · obtain ⟨s, hs, hdata⟩ := collect_under root t hg hw it hit
      have hrd : r.path.data = root.data ++ '/' :: s := by rw [hp]; exact hdata
      refine ⟨?_, s, hs, hrd⟩
      intro hEq
      have hlen := congrArg List.length hrd
      rw [hEq] at hlen
      simp only [List.length_append, List.length_cons] at hlen
      omega

/-- C10 witness: the walkthrough run emits rows and its first row's
path lies strictly under the root `/scan`. -/
theorem claim_C10_witness :
    goodAbs "/scan" = true ∧ wfTree treeScenario = true ∧
    ∃ r ∈ (generate_excel (fun _ => "") (fun _ => "") "/scan" "/out.xlsx"
        treeScenario true).2,
      r.path ≠ "/scan" ∧ ∃ s, s ≠ [] ∧ r.path.data = "/scan".data ++ '/' :: s := by
  have hlen : 0 < (generate_excel (fun _ => "") (fun _ => "") "/scan" "/out.xlsx"
      treeScenario true).2.length := by decide
  have hmem := List.get_mem (generate_excel (fun _ => "") (fun _ => "") "/scan" "/out.xlsx"
      treeScenario true).2 0 hlen
  exact ⟨rfl, rfl,
    ⟨_, hmem, claim_C10 (fun _ => "") (fun _ => "") "/scan" "/out.xlsx" treeScenario true
      rfl rfl _ hmem⟩⟩

end MacDirScope
